import Mathlib

/-!
# Verification of the `await-tree` span-tree core

A shallow embedding of the `await-tree` crate's core data structures and
operations, translated from the Rust sources:

* `src/span.rs` — the `Span` value with its `verbose` / `long_running`
  attribute setters;
* `src/context.rs` — the arena-backed span tree (`Tree`) with its
  `push` / `step_in` / `step_out` / `pop` / `remove_and_detach` primitives,
  the `Display` rendering, the serde serialization shape, and
  `TreeContext::new`;
* `src/future.rs` — the `Instrumented` wrapper's poll/drop state machine;
* `src/registry.rs` — the keyed registry with anonymous keys.

Machine integers (`u64` ids, nanosecond clocks) are modelled as `Nat`;
the monotonic coarse clock is an explicit `now : Nat` parameter threaded
through the operations that read it.  Rust panics (`expect`, `unreachable!`)
are modelled as `Option` / `Except` failures.  The `indextree` arena is
modelled as a list of slots, each slot holding the node's span payload
together with its parent link and its (ordered) list of children; the
intrusive first-child / sibling links of `indextree` denote exactly such a
children list, with `prepend` adding at the front.
-/

namespace AwaitTree

/-- `Span` from `src/span.rs`: an immutable name plus two attribute bits.
`SpanName` (`flexstr::SharedStr`) is modelled as `String`. -/
structure Span where
  name : String
  is_verbose : Bool
  is_long_running : Bool
deriving DecidableEq, Repr

/-- `Span::new` (`src/span.rs`): both attributes start out `false`. -/
def Span.new (name : String) : Span :=
  { name := name, is_verbose := false, is_long_running := false }

/-- `Span::verbose` (`src/span.rs`): set the verbose attribute. -/
def Span.verbose (s : Span) : Span :=
  { s with is_verbose := true }

/-- `Span::long_running` (`src/span.rs`): set the long-running attribute. -/
def Span.long_running (s : Span) : Span :=
  { s with is_long_running := true }

/-- One slot of the arena.  The `span` and `start_time` fields are the
`SpanNode` payload of `src/context.rs`; `parent`, `children` and `removed`
model the `indextree` node links and removal flag.  `children` is ordered:
its head is the most recently prepended child. -/
structure NodeData where
  span : Span
  start_time : Nat
  parent : Option Nat
  children : List Nat
  removed : Bool
deriving DecidableEq, Repr

/-- The await-tree of one task (`Tree` in `src/context.rs`): the arena of
slots, the root node id and the current node id.  Node ids are indices into
`arena`. -/
structure Tree where
  arena : List NodeData
  root : Nat
  current : Nat
deriving DecidableEq, Repr

namespace Tree

/-- Look up the slot of node `i` (`arena[id]` in the source). -/
def node? (t : Tree) (i : Nat) : Option NodeData :=
  t.arena[i]?

/-- Apply `f` to slot `i` of the arena, leaving other slots untouched. -/
def modifyNode (a : List NodeData) (i : Nat) (f : NodeData → NodeData) :
    List NodeData :=
  match a[i]? with
  | some nd => a.set i (f nd)
  | none => a

/-- `NodeId::detach` of `indextree` as used by `src/context.rs`: unlink the
node from its parent's children list and clear its parent link.  The node
keeps its own subtree.  A node with no parent is left unchanged. -/
def detach (t : Tree) (i : Nat) : Tree :=
  match t.node? i with
  | none => t
  | some nd =>
    match nd.parent with
    | none => t
    | some p =>
      let a := modifyNode t.arena p (fun pn => { pn with children := pn.children.erase i })
      let a := modifyNode a i (fun n => { n with parent := none })
      { t with arena := a }

/-- `NodeId::prepend` of `indextree`: detach `c` from its prior position and
insert it as the *first* child of `p`.  Models the non-panicking path (the
call sites of the crate never prepend a node to itself or touch removed
nodes). -/
def prepend (t : Tree) (p c : Nat) : Tree :=
  let t := t.detach c
  let a := modifyNode t.arena c (fun n => { n with parent := some p })
  let a := modifyNode a p (fun pn => { pn with children := c :: pn.children })
  { t with arena := a }

/-- `Tree::push` (`src/context.rs`): allocate a node for `span` started at
`now`, prepend it as a child of `current`, make it the new current node and
return its id.  `Arena::new_node` is modelled as appending a fresh slot. -/
def push (t : Tree) (span : Span) (now : Nat) : Tree × Nat :=
  let child := t.arena.length
  let nd : NodeData :=
    { span := span, start_time := now, parent := none, children := [], removed := false }
  let t1 : Tree := { t with arena := t.arena ++ [nd] }
  let t2 := t1.prepend t.current child
  ({ t2 with current := child }, child)

/-- `Tree::step_in` (`src/context.rs`): if `child` is not already a child of
`current`, detach it from its prior parent and prepend it to `current`;
then make it the current node. -/
def step_in (t : Tree) (child : Nat) : Tree :=
  let isChild :=
    match t.node? t.current with
    | some nd => nd.children.contains child
    | none => false
  let t1 := if isChild then t else t.prepend t.current child
  { t1 with current := child }

/-- `Tree::step_out` (`src/context.rs`): move `current` to its parent.
`none` models the `expect("the root node should not be stepped out")`
panic. -/
def step_out (t : Tree) : Option Tree := do
  let nd ← t.node? t.current
  let p ← nd.parent
  pure { t with current := p }

/-- `NodeId::remove` of `indextree` in the detached case (the only case the
crate exercises, via `remove_and_detach`): mark the slot removed, clear its
links, and re-parent each of its children to the removed node's (absent)
parent, so they become detached roots. -/
def removeDetached (t : Tree) (i : Nat) : Tree :=
  match t.node? i with
  | none => t
  | some nd =>
    let a := nd.children.foldl
      (fun a c => modifyNode a c (fun n => { n with parent := nd.parent })) t.arena
    let a := modifyNode a i
      (fun n => { n with removed := true, parent := none, children := [] })
    { t with arena := a }

/-- `Tree::remove_and_detach` (`src/context.rs`): detach the node from its
parent, then remove it; removing the detached node makes its children
detached. -/
def remove_and_detach (t : Tree) (i : Nat) : Tree :=
  (t.detach i).removeDetached i

/-- `Tree::pop` (`src/context.rs`): remove-and-detach the current node and
move `current` to its former parent.  `none` models the
`expect("the root node should not be popped")` panic. -/
def pop (t : Tree) : Option Tree := do
  let nd ← t.node? t.current
  let parent ← nd.parent
  let t1 := t.remove_and_detach t.current
  pure { t1 with current := parent }

/-- `Tree::active_node_count` (`src/context.rs`): the number of
non-removed slots. -/
def activeNodeCount (t : Tree) : Nat :=
  t.arena.countP (fun n => !n.removed)

/-- `Tree::detached_roots` (`src/context.rs`): ids of the live slots that
have no parent and are not the root, in arena (slot) order. -/
def detachedRoots (t : Tree) : List Nat :=
  (List.range t.arena.length).filter fun i =>
    match t.arena[i]? with
    | some n => !n.removed && n.parent.isNone && i != t.root
    | none => false

/-- `Tree::detached_node_count` (`src/context.rs`). -/
def detachedNodeCount (t : Tree) : Nat :=
  t.detachedRoots.length

end Tree

/-! ## Display and serialization (`impl Display for Tree`, `mod serde_impl`) -/

/-- Three zero-padded decimal digits, for the fractional part of a duration
(`{:.3?}` always prints exactly three fractional digits). -/
def pad3 (n : Nat) : String :=
  String.mk [Nat.digitChar (n / 100 % 10), Nat.digitChar (n / 10 % 10), Nat.digitChar (n % 10)]

/-- Render `ns` nanoseconds against a decimal `scale` (the nanoseconds per
chosen unit) with three fractional digits, rounding the third digit the way
`std::time::Duration`'s `Debug` impl does (round up when the next digit is
at least five), carrying into the integer part when rounding overflows. -/
def fmtScaled (ns scale : Nat) (unit : String) : String :=
  let ip := ns / scale
  let frac := (ns % scale * 1000 + scale / 2) / scale
  toString (ip + frac / 1000) ++ "." ++ pad3 (frac % 1000) ++ unit

/-- `{:.3?}` on a `std::time::Duration` of `ns` nanoseconds: pick the
largest SI unit whose quantity is at least one, with three fractional
digits. -/
def fmtDuration3 (ns : Nat) : String :=
  if 1000000000 ≤ ns then fmtScaled ns 1000000000 "s"
  else if 1000000 ≤ ns then fmtScaled ns 1000000 "ms"
  else if 1000 ≤ ns then fmtScaled ns 1000 "µs"
  else fmtScaled ns 1 "ns"

/-- The stale-span marker of `fmt_node` (`src/context.rs`): transcribes
`if !inner.span.is_long_running && elapsed.as_secs() >= 10 { "!!! " } else { "" }`. -/
def staleMark (sp : Span) (elapsedNs : Nat) : String :=
  if sp.is_long_running = false ∧ 10 ≤ elapsedNs / 1000000000 then "!!! " else ""

/-- `" ".repeat(depth * 2)` of `fmt_node`. -/
def indent (depth : Nat) : String :=
  String.mk (List.replicate (depth * 2) ' ')

/-- One output line of `fmt_node` (`src/context.rs`) for a node displayed at
`depth`: indentation, the span name, the bracketed elapsed time with the
stale marker, and the current marker when `depth > 0` and the node is the
current node. -/
def renderLine (nd : NodeData) (depth : Nat) (isCurrent : Bool) (now : Nat) : String :=
  let elapsed := now - nd.start_time
  indent depth ++ nd.span.name ++ " [" ++ staleMark nd.span elapsed ++
    fmtDuration3 elapsed ++ "]" ++
    (if depth > 0 && isCurrent then "  <== current" else "") ++ "\n"

/-- The sort key of `sorted_by_key(|id| arena[id].get().start_time)`. -/
def startKey (t : Tree) (i : Nat) : Nat :=
  match t.node? i with
  | some nd => nd.start_time
  | none => 0

/-- The children list of node `i` (empty for a dangling id). -/
def childrenOf (t : Tree) (i : Nat) : List Nat :=
  match t.node? i with
  | some nd => nd.children
  | none => []

/-- `children.sorted_by_key(start_time)` as used by both `fmt_node` and the
serde impl: a stable sort of the child ids by ascending start time (the
result of any stable sort is unique, so `insertionSort` models the source's
stable sort exactly). -/
def sortChildren (t : Tree) (cs : List Nat) : List Nat :=
  List.insertionSort (fun a b => startKey t a ≤ startKey t b) cs

/-- The depth-first traversal of `fmt_node`, as the list of
`(node id, depth)` pairs in emission order.  Fuel bounds the recursion
depth; every tree reachable by the crate's operations is acyclic, so a fuel
of one more than the arena size never runs out. -/
def displayEntriesAux (t : Tree) : Nat → Nat → Nat → List (Nat × Nat)
  | 0, _, _ => []
  | fuel + 1, i, depth =>
    (i, depth) ::
      (sortChildren t (childrenOf t i)).flatMap
        (fun c => displayEntriesAux t fuel c (depth + 1))

/-- The `(node id, depth)` pairs of the main-tree part of `Display`
(`fmt_node(f, arena, root, 0, current)`). -/
def Tree.mainEntries (t : Tree) : List (Nat × Nat) :=
  displayEntriesAux t (t.arena.length + 1) t.root 0

/-- The `(node id, depth)` pairs of the detached sections of `Display`
(each detached root rendered starting at depth 1). -/
def Tree.detachedEntries (t : Tree) : List (Nat × Nat) :=
  t.detachedRoots.flatMap fun n => displayEntriesAux t (t.arena.length + 1) n 1

/-- All `(node id, depth)` pairs whose node lines `Display` emits. -/
def Tree.nodeEntries (t : Tree) : List (Nat × Nat) :=
  t.mainEntries ++ t.detachedEntries

/-- The rendered line of one traversal entry. -/
def entryLine (t : Tree) (now : Nat) (e : Nat × Nat) : String :=
  match t.node? e.1 with
  | some nd => renderLine nd e.2 (e.1 == t.current) now
  | none => ""

/-- `impl Display for Tree` (`src/context.rs`): the main tree from the root
at depth 0, then for each detached root a `[Detached N]` header followed by
its subtree at depth 1.  (`indextree::NodeId` displays as the one-based
slot index, hence `n + 1`.) -/
def Tree.display (t : Tree) (now : Nat) : String :=
  String.join (t.mainEntries.map (entryLine t now)) ++
    String.join (t.detachedRoots.map fun n =>
      "[Detached " ++ toString (n + 1) ++ "]\n" ++
        String.join ((displayEntriesAux t (t.arena.length + 1) n 1).map (entryLine t now)))

/-- The serialized form of one span node (`SpanNodeSer` in
`src/context.rs`): id, span, elapsed nanoseconds and the children,
start-time-sorted. -/
inductive SerNode where
  | mk (id : Nat) (span : Span) (elapsed_ns : Nat) (children : List SerNode)

/-- The serialized id. -/
def SerNode.id : SerNode → Nat
  | .mk i _ _ _ => i

/-- The serialized children. -/
def SerNode.children : SerNode → List SerNode
  | .mk _ _ _ cs => cs

/-- `impl Serialize for SpanNodeSer` (`src/context.rs`): serialize node `i`
with its children sorted by ascending start time.  Fuel as in
`displayEntriesAux`. -/
def serializeNode (t : Tree) (now : Nat) : Nat → Nat → SerNode
  | 0, i => .mk i (Span.new "") 0 []
  | fuel + 1, i =>
    match t.node? i with
    | none => .mk i (Span.new "") 0 []
    | some nd =>
      .mk i nd.span (now - nd.start_time)
        ((sortChildren t nd.children).map fun c => serializeNode t now fuel c)

/-- `impl Serialize for Tree` (`src/context.rs`): the current id, the main
tree and the detached subtrees. -/
structure SerTree where
  current : Nat
  tree : SerNode
  detached : List SerNode

/-- Serialize a whole tree. -/
def Tree.serialize (t : Tree) (now : Nat) : SerTree :=
  { current := t.current,
    tree := serializeNode t now (t.arena.length + 1) t.root,
    detached := t.detachedRoots.map fun n => serializeNode t now (t.arena.length + 1) n }

/-- The serialized children of every node, at every level, are sorted by
ascending start time of the corresponding arena slots. -/
def serSortedByStart (t : Tree) : SerNode → Prop
  | .mk _ _ _ cs =>
    List.Sorted (· ≤ ·) (cs.map fun c => startKey t c.id) ∧
      ∀ c ∈ cs, serSortedByStart t c
decreasing_by
  rename_i hmem
  have h := List.sizeOf_lt_of_mem hmem
  simp only [SerNode.mk.sizeOf_spec]
  omega

/-- `TreeContext::new` (`src/context.rs`), tree part: a fresh arena holding
only the root span — which is always forced long-running — with
`current = root`.  The context id is assigned by the caller (it comes from a
global counter in the source). -/
def treeContextNew (root_span : Span) (now : Nat) : Tree :=
  let root_span := root_span.long_running
  { arena := [{ span := root_span, start_time := now, parent := none,
                children := [], removed := false }],
    root := 0, current := 0 }

/-! ## The `Instrumented` wrapper state machine (`src/future.rs`) -/

/-- Rust's `>=` on `bool` (`false < true`), as used in
`c.verbose() >= VERBOSE`. -/
def boolGe (a b : Bool) : Bool :=
  a || !b

/-- The per-task ambient context as the wrapper observes it through
`try_with_context` / `with_context`: the context id, the context's verbose
flag and its tree. -/
structure Ctx where
  id : Nat
  verbose : Bool
  tree : Tree
deriving DecidableEq, Repr

/-- `enum State` of `src/future.rs`. -/
inductive State where
  | initial (span : Span)
  | polled (this_node : Nat) (this_context : Nat)
  | ready
  | disabled
deriving DecidableEq, Repr

/-- The result of polling the inner future. -/
inductive InnerPoll where
  | ready
  | pending
deriving DecidableEq, Repr

/-- The panics `Instrumented::poll` can raise: `unreachable!` on polling a
`Ready` wrapper, and the two `expect`s of `Tree::pop` / `Tree::step_out`. -/
inductive PanicKind where
  | polledAfterReady
  | popRoot
  | stepOutRoot
deriving DecidableEq, Repr

/-- The `tracing::warn!` diagnostics of `src/future.rs`. -/
inductive Warning where
  | polledNotInContext
  | polledDifferentContext
  | droppedNotInContext
  | droppedDifferentContext
deriving DecidableEq, Repr

/-- The observable outcome of one non-panicking `Instrumented::poll` call:
the wrapper state afterwards, the ambient context's tree afterwards
(`none` iff there was no ambient context to read), whether any tree
operation ran, the warning emitted if any, and the value the poll returns —
always exactly the inner future's result. -/
structure PollStep where
  state : State
  tree : Option Tree
  treeTouched : Bool
  warning : Option Warning
  result : InnerPoll
deriving DecidableEq, Repr

/-- The tail of `Instrumented::poll` after a push or step-in: poll the inner
future, then `pop` on `Ready` (state becomes `Ready`) or `step_out` on
`Pending` (state stays `Polled`). -/
def afterInnerPoll (st : State) (t : Tree) (inner : InnerPoll) :
    Except PanicKind PollStep :=
  match inner with
  | .ready =>
    match t.pop with
    | some t2 => .ok ⟨.ready, some t2, true, none, .ready⟩
    | none => .error .popRoot
  | .pending =>
    match t.step_out with
    | some t2 => .ok ⟨st, some t2, true, none, .pending⟩
    | none => .error .stepOutRoot

/-- `Instrumented::<F, VERBOSE>::poll` (`src/future.rs`), with the ambient
context and the inner future's behaviour passed explicitly.  `now` is the
coarse clock reading at the push, threaded to `Tree::push`. -/
def instrumentedPoll (V : Bool) (st : State) (ambient : Option Ctx)
    (inner : InnerPoll) (now : Nat) : Except PanicKind PollStep :=
  match st with
  | .initial span =>
    match ambient with
    | none => .ok ⟨.initial span, none, false, none, inner⟩
    | some c =>
      if boolGe c.verbose V = false then
        .ok ⟨.disabled, some c.tree, false, none, inner⟩
      else
        let p := c.tree.push span now
        afterInnerPoll (.polled p.2 c.id) p.1 inner
  | .polled node ctxId =>
    match ambient with
    | none => .ok ⟨st, none, false, some .polledNotInContext, inner⟩
    | some c =>
      if c.id = ctxId then
        afterInnerPoll st (c.tree.step_in node) inner
      else
        .ok ⟨st, some c.tree, false, some .polledDifferentContext, inner⟩
  | .ready => .error .polledAfterReady
  | .disabled => .ok ⟨.disabled, ambient.map Ctx.tree, false, none, inner⟩

/-- The observable outcome of dropping an `Instrumented` wrapper: the
ambient context's tree afterwards (`none` iff there was no ambient
context) and the warning emitted if any.  Dropping never panics. -/
structure DropStep where
  tree : Option Tree
  warning : Option Warning
deriving DecidableEq, Repr

/-- `PinnedDrop for Instrumented` (`src/future.rs`): in the `Polled` state
with a matching ambient context, `remove_and_detach` the node; with a
missing or mismatched context, warn and leave every tree alone.  In any
other state, do nothing. -/
def instrumentedDrop (st : State) (ambient : Option Ctx) : DropStep :=
  match st with
  | .polled node ctxId =>
    match ambient with
    | none => ⟨none, some .droppedNotInContext⟩
    | some c =>
      if c.id = ctxId then ⟨some (c.tree.remove_and_detach node), none⟩
      else ⟨some c.tree, some .droppedDifferentContext⟩
  | _ => ⟨ambient.map Ctx.tree, none⟩

/-! ## The registry (`src/registry.rs`) -/

/-- A user-supplied key after type erasure: `tyId` models the Rust
`TypeId` of the concrete key type and `val` the value's content.
`DynEq::dyn_eq` returns `false` whenever the concrete types differ, so
erased keys compare equal exactly when both components agree. -/
structure UserKey where
  tyId : Nat
  val : Nat
deriving DecidableEq, Repr

/-- `AnyKey` (`src/registry.rs`): either an erased user key or the private
`AnonymousKey(ContextId)`.  `AnonymousKey` is a concrete type of its own,
private to the crate, so no user key ever compares equal to it — modelled
by the constructor split. -/
inductive AnyKey where
  | user (k : UserKey)
  | anonymous (id : Nat)
deriving DecidableEq, Repr

/-- A registered tree context as the registry sees it: id, verbose flag and
tree. -/
structure RegCtx where
  id : Nat
  verbose : Bool
  tree : Tree
deriving DecidableEq, Repr

/-- The registry state (`RegistryCore`): the config's verbose flag, the
next context id of the global counter, and the contexts map.  The
`WeakValueHashMap` is modelled as an association list whose values are
`Option RegCtx` — `none` models a weak reference whose strong side was
dropped. -/
structure Registry where
  config_verbose : Bool
  nextId : Nat
  contexts : List (AnyKey × Option RegCtx)
deriving DecidableEq, Repr

/-- Map insertion with hash-map semantics: overwrite the entry with an
equal key if present, otherwise add a new entry. -/
def insertCtx (m : List (AnyKey × Option RegCtx)) (k : AnyKey) (c : RegCtx) :
    List (AnyKey × Option RegCtx) :=
  if m.any (fun kv => kv.1 = k) then
    m.map fun kv => if kv.1 = k then (k, some c) else kv
  else
    m ++ [(k, some c)]

namespace Registry

/-- `Registry::register` (`src/registry.rs`): build a fresh context with
the config's verbose flag and insert it under the erased user key.
Returns the new registry state and the context handed to the `TreeRoot`. -/
def register (r : Registry) (k : UserKey) (root_span : Span) (now : Nat) :
    Registry × RegCtx :=
  let ctx : RegCtx :=
    { id := r.nextId, verbose := r.config_verbose, tree := treeContextNew root_span now }
  ({ r with nextId := r.nextId + 1,
            contexts := insertCtx r.contexts (.user k) ctx }, ctx)

/-- `Registry::register_anonymous` (`src/registry.rs`): as `register`, but
keyed by the context's own private id. -/
def register_anonymous (r : Registry) (root_span : Span) (now : Nat) :
    Registry × RegCtx :=
  let ctx : RegCtx :=
    { id := r.nextId, verbose := r.config_verbose, tree := treeContextNew root_span now }
  ({ r with nextId := r.nextId + 1,
            contexts := insertCtx r.contexts (.anonymous ctx.id) ctx }, ctx)

/-- `Registry::get` (`src/registry.rs`): look up the erased user key and
snapshot the tree; `none` if the key is absent or the weak reference is
dead. -/
def get (r : Registry) (k : UserKey) : Option Tree :=
  (r.contexts.find? (fun kv => kv.1 = AnyKey.user k)).bind fun kv => kv.2.map RegCtx.tree

/-- `Registry::collect_anonymous` (`src/registry.rs`): the tree snapshots
of exactly the live entries whose key is the anonymous variant, in map
iteration order. -/
def collect_anonymous (r : Registry) : List Tree :=
  r.contexts.filterMap fun kv =>
    match kv.1, kv.2 with
    | .anonymous _, some c => some c.tree
    | _, _ => none

end Registry

/-- The spec-side rendering of `step_in` for the refinement claim, following
the spec's words: unconditionally detach the node from its prior parent,
prepend it as a child of the current node, and make it current
(`Tree.prepend` performs exactly detach-then-insert-first). -/
def stepInUnconditional (t : Tree) (node : Nat) : Tree :=
  { t.prepend t.current node with current := node }

/-- A one-node context tree: root span `root` started at time 0. -/
def exRoot : Tree :=
  treeContextNew (Span.new "root") 0

/-- Scenario S7: under the root, push children named `b`, `a`, `c` in that
order with start times 3, 1, 2, stepping out after each push. -/
def s7tree : Tree :=
  let t1 := (exRoot.push (Span.new "b") 3).1
  let t2 := t1.step_out.getD exRoot
  let t3 := (t2.push (Span.new "a") 1).1
  let t4 := t3.step_out.getD exRoot
  let t5 := (t4.push (Span.new "c") 2).1
  t5.step_out.getD exRoot

/-- A tree with two children of the root that share a start time: `b` and
`a` both started at 5, pushed in that order. -/
def tieTree : Tree :=
  let t1 := (exRoot.push (Span.new "b") 5).1
  let t2 := t1.step_out.getD exRoot
  let t3 := (t2.push (Span.new "a") 5).1
  t3.step_out.getD exRoot

/-- A concrete registry holding one user entry (type tag 1, value 5). -/
def regEx : Registry :=
  (Registry.register { config_verbose := false, nextId := 0, contexts := [] }
    ⟨1, 5⟩ (Span.new "u") 0).1

/-! ## Arena toolkit lemmas -/

namespace Tree

theorem length_modifyNode (a : List NodeData) (i : Nat) (f : NodeData → NodeData) :
    (modifyNode a i f).length = a.length := by
  unfold modifyNode
  cases a[i]? <;> simp

theorem getElem?_modifyNode_ne (a : List NodeData) (i : Nat) (f : NodeData → NodeData)
    (j : Nat) (h : j ≠ i) : (modifyNode a i f)[j]? = a[j]? := by
  unfold modifyNode
  cases a[i]? <;> simp [List.getElem?_set_ne (Ne.symm h)]

theorem getElem?_modifyNode_self (a : List NodeData) (i : Nat) (f : NodeData → NodeData)
    (nd : NodeData) (h : a[i]? = some nd) : (modifyNode a i f)[i]? = some (f nd) := by
  unfold modifyNode
  rw [h]
  obtain ⟨hlt, hv⟩ := List.getElem?_eq_some_iff.mp h
  simp [List.getElem?_set, hlt]

theorem countP_modifyNode_of_preserve (p : NodeData → Bool) (a : List NodeData) (i : Nat)
    (f : NodeData → NodeData) (h : ∀ nd, p (f nd) = p nd) :
    (modifyNode a i f).countP p = a.countP p := by
  unfold modifyNode
  cases hx : a[i]? with
  | none => rfl
  | some nd =>
    obtain ⟨hlt, hv⟩ := List.getElem?_eq_some_iff.mp hx
    rw [List.countP_set p a i (f nd) hlt, hv, h nd]
    rcases hb : p nd with _ | _
    · simp [hb]
    · have hpos : 0 < a.countP p :=
        List.countP_pos_iff.mpr ⟨nd, hv ▸ List.getElem_mem hlt, hb⟩
      rw [if_pos rfl]
      omega

theorem map_removed_modifyNode (a : List NodeData) (i : Nat) (f : NodeData → NodeData)
    (j : Nat) (h : ∀ nd, (f nd).removed = nd.removed) :
    ((modifyNode a i f)[j]?).map NodeData.removed = (a[j]?).map NodeData.removed := by
  rcases eq_or_ne j i with rfl | hne
  · cases hx : a[j]? with
    | none =>
      unfold modifyNode
      simp [hx]
    | some nd =>
      simp [getElem?_modifyNode_self a j f nd hx, hx, h nd]
  · rw [getElem?_modifyNode_ne a i f j hne]

/-- The parent-resetting fold of `removeDetached`, slotwise: a node's slot
is re-parented exactly when its id occurs among the children being
re-parented (re-parenting twice is the same as once). -/
theorem getElem?_foldl_reparent (pv : Option Nat) (cs : List Nat) (a : List NodeData) (j : Nat) :
    (cs.foldl (fun a c => modifyNode a c (fun n => { n with parent := pv })) a)[j]? =
      if j ∈ cs then (a[j]?).map (fun n => { n with parent := pv }) else a[j]? := by
  induction cs generalizing a with
  | nil => simp
  | cons c cs ih =>
    rw [List.foldl_cons, ih]
    rcases eq_or_ne j c with rfl | hne
    · simp only [List.mem_cons, true_or, if_pos]
      by_cases hm : j ∈ cs
      · rw [if_pos hm]
        cases hx : a[j]? with
        | none =>
          unfold modifyNode
          simp [hx]
        | some nd => simp [getElem?_modifyNode_self a j _ nd hx]
      · rw [if_neg hm]
        cases hx : a[j]? with
        | none =>
          unfold modifyNode
          simp [hx]
        | some nd => simp [getElem?_modifyNode_self a j _ nd hx]
    · rw [getElem?_modifyNode_ne a c _ j hne]
      simp [List.mem_cons, hne]

theorem countP_foldl_reparent (p : NodeData → Bool) (hp : ∀ nd pv, p { nd with parent := pv } = p nd)
    (pv : Option Nat) (cs : List Nat) (a : List NodeData) :
    (cs.foldl (fun a c => modifyNode a c (fun n => { n with parent := pv })) a).countP p =
      a.countP p := by
  induction cs generalizing a with
  | nil => rfl
  | cons c cs ih =>
    rw [List.foldl_cons, ih, countP_modifyNode_of_preserve p a c _ (fun nd => hp nd pv)]

/-- `detach` never changes which slots are removed. -/
theorem map_removed_detach (t : Tree) (i j : Nat) :
    ((t.detach i).node? j).map NodeData.removed = (t.node? j).map NodeData.removed := by
  unfold detach
  cases hnd : t.node? i with
  | none => rfl
  | some nd =>
    dsimp only
    cases hp : nd.parent with
    | none => rfl
    | some p =>
      dsimp only [node?]
      have e1 := map_removed_modifyNode
        (modifyNode t.arena p (fun pn => { pn with children := pn.children.erase i }))
        i (fun n => { n with parent := none }) j (fun nd => rfl)
      have e2 := map_removed_modifyNode t.arena p
        (fun pn => { pn with children := pn.children.erase i }) j (fun nd => rfl)
      rw [e1, e2]

/-- `prepend` never changes which slots are removed. -/
theorem map_removed_prepend (t : Tree) (p c j : Nat) :
    ((t.prepend p c).node? j).map NodeData.removed = (t.node? j).map NodeData.removed := by
  unfold prepend
  dsimp only [node?]
  have e1 := map_removed_modifyNode
    (modifyNode (t.detach c).arena c (fun n => { n with parent := some p }))
    p (fun pn => { pn with children := c :: pn.children }) j (fun nd => rfl)
  have e2 := map_removed_modifyNode (t.detach c).arena c
    (fun n => { n with parent := some p }) j (fun nd => rfl)
  rw [e1, e2]
  exact map_removed_detach t c j

theorem activeNodeCount_detach (t : Tree) (i : Nat) :
    (t.detach i).activeNodeCount = t.activeNodeCount := by
  unfold detach
  cases hnd : t.node? i with
  | none => rfl
  | some nd =>
    dsimp only
    cases hp : nd.parent with
    | none => rfl
    | some p =>
      dsimp only [activeNodeCount]
      have e1 := countP_modifyNode_of_preserve (fun n => !n.removed)
        (modifyNode t.arena p (fun pn => { pn with children := pn.children.erase i }))
        i (fun n => { n with parent := none }) (fun nd => rfl)
      have e2 := countP_modifyNode_of_preserve (fun n => !n.removed) t.arena p
        (fun pn => { pn with children := pn.children.erase i }) (fun nd => rfl)
      rw [e1, e2]

theorem activeNodeCount_prepend (t : Tree) (p c : Nat) :
    (t.prepend p c).activeNodeCount = t.activeNodeCount := by
  unfold prepend
  dsimp only [activeNodeCount]
  have e1 := countP_modifyNode_of_preserve (fun n => !n.removed)
    (modifyNode (t.detach c).arena c (fun n => { n with parent := some p }))
    p (fun pn => { pn with children := c :: pn.children }) (fun nd => rfl)
  have e2 := countP_modifyNode_of_preserve (fun n => !n.removed) (t.detach c).arena c
    (fun n => { n with parent := some p }) (fun nd => rfl)
  rw [e1, e2]
  exact activeNodeCount_detach t c

theorem activeNodeCount_step_in (t : Tree) (c : Nat) :
    (t.step_in c).activeNodeCount = t.activeNodeCount := by
  unfold step_in
  dsimp only
  split
  · rfl
  · exact activeNodeCount_prepend t t.current c

/-- The removal marker of `removeDetached` flips the removed flag on. -/
theorem removed_mark (nd : NodeData) :
    ({ nd with removed := true, parent := none, children := [] } : NodeData).removed = true :=
  rfl

/-- Removing a live detached node decrements the active node count by
exactly one. -/
theorem activeNodeCount_removeDetached (t : Tree) (i : Nat) (nd : NodeData)
    (h : t.node? i = some nd) (hlive : nd.removed = false) :
    (t.removeDetached i).activeNodeCount + 1 = t.activeNodeCount := by
  unfold removeDetached
  rw [h]
  dsimp only [activeNodeCount]
  have hfold := countP_foldl_reparent (fun n => !n.removed) (fun _ _ => rfl) nd.parent
    nd.children t.arena
  set a1 := nd.children.foldl
    (fun a c => modifyNode a c (fun n => { n with parent := nd.parent })) t.arena with ha1
  have hj : a1[i]? = if i ∈ nd.children then
      (t.arena[i]?).map (fun n => { n with parent := nd.parent }) else t.arena[i]? :=
    getElem?_foldl_reparent nd.parent nd.children t.arena i
  have hex : ∃ nd1, a1[i]? = some nd1 ∧ nd1.removed = false := by
    rw [hj]
    split
    · exact ⟨_, by rw [show t.arena[i]? = t.node? i from rfl, h]; rfl, hlive⟩
    · exact ⟨nd, h, hlive⟩
  obtain ⟨nd1, hnd1, hlive1⟩ := hex
  obtain ⟨hlt, hv⟩ := List.getElem?_eq_some_iff.mp hnd1
  unfold modifyNode
  rw [hnd1]
  rw [List.countP_set _ a1 i _ hlt, hv]
  have hpos : 0 < a1.countP (fun n => !n.removed) :=
    List.countP_pos_iff.mpr ⟨nd1, hv ▸ List.getElem_mem hlt, by simp [hlive1]⟩
  rw [hfold] at hpos ⊢
  have h1 : (if (!nd1.removed) = true then 1 else 0) = 1 := by simp [hlive1]
  rw [h1]
  dsimp only
  simp only [Bool.not_true]
  rw [if_neg (by simp)]
  omega

/-- `pop` on a live current node that has a parent succeeds, moves
`current` to that parent and decrements the active node count by exactly
one. -/
theorem pop_activeNodeCount (t : Tree) (nd : NodeData) (q : Nat)
    (hnd : t.node? t.current = some nd) (hlive : nd.removed = false)
    (hq : nd.parent = some q) :
    ∃ t', t.pop = some t' ∧ t'.current = q ∧
      t'.activeNodeCount + 1 = t.activeNodeCount := by
  have hd := map_removed_detach t t.current t.current
  rw [hnd] at hd
  obtain ⟨nd', hnd', hrem'⟩ : ∃ nd', (t.detach t.current).node? t.current = some nd' ∧
      nd'.removed = false := by
    cases hx : (t.detach t.current).node? t.current with
    | none =>
      rw [hx] at hd
      simp at hd
    | some v =>
      rw [hx] at hd
      simp only [Option.map_some'] at hd
      refine ⟨v, rfl, ?_⟩
      injection hd with h
      rw [h, hlive]
  have hcount := activeNodeCount_removeDetached (t.detach t.current) t.current nd' hnd' hrem'
  refine ⟨{ t.remove_and_detach t.current with current := q }, ?_, rfl, ?_⟩
  · simp [pop, hnd, hq]
  · have he : ({ t.remove_and_detach t.current with current := q } : Tree).activeNodeCount
        = (t.remove_and_detach t.current).activeNodeCount := rfl
    rw [he, show t.remove_and_detach t.current
      = (t.detach t.current).removeDetached t.current from rfl, hcount]
    exact activeNodeCount_detach t t.current

theorem getElem?_modifyNode (a : List NodeData) (i : Nat) (f : NodeData → NodeData) :
    (modifyNode a i f)[i]? = (a[i]?).map f := by
  cases hx : a[i]? with
  | none =>
    unfold modifyNode
    simp [hx]
  | some nd => simp [getElem?_modifyNode_self a i f nd hx, hx]

/-- Slotwise effect of `detach` on a node with a parent. -/
theorem detach_slots (t : Tree) (i : Nat) (nd : NodeData) (q : Nat)
    (hnd : t.node? i = some nd) (hq : nd.parent = some q) (hq_ne : q ≠ i) :
    (t.detach i).node? i = some { nd with parent := none } ∧
    (t.detach i).node? q
      = (t.node? q).map (fun n => { n with children := n.children.erase i }) ∧
    (∀ j, j ≠ i → j ≠ q → (t.detach i).node? j = t.node? j) := by
  unfold detach
  rw [hnd]
  dsimp only
  rw [hq]
  dsimp only [node?]
  refine ⟨?_, ?_, ?_⟩
  · rw [getElem?_modifyNode, getElem?_modifyNode_ne _ q _ i (Ne.symm hq_ne)]
    rw [show t.arena[i]? = t.node? i from rfl, hnd]
    rfl
  · rw [getElem?_modifyNode_ne _ i _ q hq_ne, getElem?_modifyNode]
  · intro j hji hjq
    rw [getElem?_modifyNode_ne _ i _ j hji, getElem?_modifyNode_ne _ q _ j hjq]

/-- Slotwise effect of `removeDetached` on a live node whose children list
does not contain the node itself. -/
theorem removeDetached_slots (t : Tree) (i : Nat) (nd : NodeData)
    (hnd : t.node? i = some nd) (hself : i ∉ nd.children) :
    (t.removeDetached i).node? i
      = some { nd with removed := true, parent := none, children := [] } ∧
    (∀ c ∈ nd.children, (t.removeDetached i).node? c
      = (t.node? c).map fun n => { n with parent := nd.parent }) ∧
    (∀ j, j ≠ i → j ∉ nd.children → (t.removeDetached i).node? j = t.node? j) := by
  unfold removeDetached
  rw [hnd]
  dsimp only [node?]
  refine ⟨?_, ?_, ?_⟩
  · rw [getElem?_modifyNode, getElem?_foldl_reparent, if_neg hself]
    rw [show t.arena[i]? = t.node? i from rfl, hnd]
    rfl
  · intro c hc
    have hci : c ≠ i := fun h => hself (h ▸ hc)
    rw [getElem?_modifyNode_ne _ i _ c hci, getElem?_foldl_reparent, if_pos hc]
  · intro j hji hjc
    rw [getElem?_modifyNode_ne _ i _ j hji, getElem?_foldl_reparent, if_neg hjc]

/-- Slotwise effect of `remove_and_detach` on a live node with a parent:
exactly the node's slot is marked removed, its children lose their parent
(becoming detached roots) but stay, the former parent loses the node from
its children list, and every other slot is untouched. -/
theorem remove_and_detach_slots (t : Tree) (i : Nat) (nd : NodeData) (q : Nat)
    (hnd : t.node? i = some nd) (hq : nd.parent = some q) (hq_ne : q ≠ i)
    (hself : i ∉ nd.children) (hqc : q ∉ nd.children) :
    (t.remove_and_detach i).node? i
      = some { nd with removed := true, parent := none, children := [] } ∧
    (∀ c ∈ nd.children, (t.remove_and_detach i).node? c
      = (t.node? c).map fun n => { n with parent := none }) ∧
    ((t.remove_and_detach i).node? q
      = (t.node? q).map fun n => { n with children := n.children.erase i }) ∧
    (∀ j, j ≠ i → j ≠ q → j ∉ nd.children → (t.remove_and_detach i).node? j = t.node? j) := by
  obtain ⟨hd1, hd2, hd3⟩ := detach_slots t i nd q hnd hq hq_ne
  obtain ⟨hr1, hr2, hr3⟩ := removeDetached_slots (t.detach i) i
    { nd with parent := none } hd1 hself
  refine ⟨hr1, ?_, ?_, ?_⟩
  · intro c hc
    have hci : c ≠ i := fun h => hself (h ▸ hc)
    have hcq : c ≠ q := fun h => hqc (h ▸ hc)
    rw [show t.remove_and_detach i = (t.detach i).removeDetached i from rfl]
    rw [hr2 c hc, hd3 c hci hcq]
  · rw [show t.remove_and_detach i = (t.detach i).removeDetached i from rfl]
    rw [hr3 q hq_ne hqc, hd2]
  · intro j hji hjq hjc
    rw [show t.remove_and_detach i = (t.detach i).removeDetached i from rfl]
    rw [hr3 j hji hjc, hd3 j hji hjq]

/-- Slotwise effect of `push`: a fresh slot is appended with the pushed
span, parented to the old current node; the old current node gains the
fresh id at the *front* of its children; everything else is untouched. -/
theorem push_slots (t : Tree) (span : Span) (now : Nat) (cnd : NodeData)
    (hcur : t.node? t.current = some cnd) :
    (t.push span now).2 = t.arena.length ∧
    (t.push span now).1.current = t.arena.length ∧
    (t.push span now).1.node? t.arena.length
      = some { span := span, start_time := now, parent := some t.current,
               children := [], removed := false } ∧
    (t.push span now).1.node? t.current
      = some { cnd with children := t.arena.length :: cnd.children } ∧
    (∀ j, j ≠ t.arena.length → j ≠ t.current → (t.push span now).1.node? j = t.node? j) ∧
    (t.push span now).1.arena.length = t.arena.length + 1 := by
  have hlt : t.current < t.arena.length := by
    have := List.getElem?_eq_some_iff.mp hcur
    exact this.choose
  have hne : t.current ≠ t.arena.length := Nat.ne_of_lt hlt
  set nd : NodeData :=
    { span := span, start_time := now, parent := none, children := [], removed := false }
    with hnddef
  set t1 : Tree := { t with arena := t.arena ++ [nd] } with ht1
  have hfresh : t1.node? t.arena.length = some nd := by
    show (t.arena ++ [nd])[t.arena.length]? = some nd
    exact List.getElem?_concat_length t.arena nd
  have hold : ∀ j, j < t.arena.length → t1.node? j = t.node? j := by
    intro j hj
    show (t.arena ++ [nd])[j]? = t.arena[j]?
    rw [List.getElem?_append]
    rw [if_pos hj]
  have hdet : t1.detach (t.arena.length) = t1 := by
    unfold detach
    rw [hfresh]
  have hstep : t.push span now
      = ({ t1.prepend t.current t.arena.length with current := t.arena.length },
          t.arena.length) := rfl
  rw [hstep]
  dsimp only
  refine ⟨rfl, rfl, ?_, ?_, ?_, ?_⟩
  · show ((t1.prepend t.current t.arena.length).node? t.arena.length) = _
    unfold prepend
    rw [hdet]
    dsimp only [node?]
    rw [getElem?_modifyNode_ne _ t.current _ t.arena.length (Ne.symm hne)]
    rw [getElem?_modifyNode]
    rw [show t1.arena[t.arena.length]? = t1.node? t.arena.length from rfl, hfresh]
    rfl
  · show ((t1.prepend t.current t.arena.length).node? t.current) = _
    unfold prepend
    rw [hdet]
    dsimp only [node?]
    rw [getElem?_modifyNode]
    rw [getElem?_modifyNode_ne _ t.arena.length _ t.current hne]
    rw [show t1.arena[t.current]? = t1.node? t.current from rfl, hold t.current hlt, hcur]
    rfl
  · intro j hjf hjc
    show ((t1.prepend t.current t.arena.length).node? j) = _
    unfold prepend
    rw [hdet]
    dsimp only [node?]
    rw [getElem?_modifyNode_ne _ t.current _ j hjc,
      getElem?_modifyNode_ne _ t.arena.length _ j hjf]
    rcases Nat.lt_or_ge j t.arena.length with hj | hj
    · exact hold j hj
    · have hj2 : t.arena.length + 1 ≤ j := by
        rcases Nat.eq_or_lt_of_le hj with h | h
        · exact absurd h.symm hjf
        · exact h
      show (t.arena ++ [nd])[j]? = t.arena[j]?
      rw [List.getElem?_append_right (by omega)]
      rw [List.getElem?_eq_none (show List.length [nd] ≤ j - t.arena.length by simp; omega),
        List.getElem?_eq_none (show t.arena.length ≤ j by omega)]
  · show ((t1.prepend t.current t.arena.length).arena.length) = _
    unfold prepend
    rw [hdet]
    dsimp only
    rw [length_modifyNode, length_modifyNode]
    simp [ht1]

/-- After `step_in` under the usual well-formedness side conditions, the
target node is current, live, and parented to the old current node — in
both the already-a-child and the re-parenting case. -/
theorem step_in_node (t : Tree) (n : Nat) (cnd nnd : NodeData)
    (hcur : t.node? t.current = some cnd) (hn : t.node? n = some nnd)
    (hne : n ≠ t.current)
    (hcons : n ∈ cnd.children → nnd.parent = some t.current)
    (hnp : nnd.parent ≠ some n) :
    (t.step_in n).current = n ∧
    ∃ nnd', (t.step_in n).node? n = some nnd' ∧ nnd'.parent = some t.current ∧
      nnd'.removed = nnd.removed := by
  unfold step_in
  rw [hcur]
  dsimp only
  by_cases hch : cnd.children.contains n = true
  · rw [if_pos hch]
    exact ⟨rfl, nnd, hn, hcons (by simpa using hch), rfl⟩
  · rw [if_neg hch]
    refine ⟨rfl, ?_⟩
    have hex : ∃ v, (t.detach n).node? n = some v ∧ v.removed = nnd.removed := by
      cases hp : nnd.parent with
      | none =>
        refine ⟨nnd, ?_, rfl⟩
        unfold detach
        rw [hn]
        dsimp only
        rw [hp]
        exact hn
      | some op =>
        have hop : op ≠ n := fun h => hnp (by rw [hp, h])
        obtain ⟨h1, _, _⟩ := detach_slots t n nnd op hn hp hop
        exact ⟨_, h1, rfl⟩
    obtain ⟨v, hv, hvr⟩ := hex
    refine ⟨{ v with parent := some t.current }, ?_, rfl, hvr⟩
    show ((t.prepend t.current n).node? n) = _
    unfold prepend
    dsimp only [node?]
    rw [getElem?_modifyNode_ne _ t.current _ n hne, getElem?_modifyNode]
    rw [show (t.detach n).arena[n]? = (t.detach n).node? n from rfl, hv]
    rfl

theorem activeNodeCount_push (t : Tree) (span : Span) (now : Nat) :
    (t.push span now).1.activeNodeCount = t.activeNodeCount + 1 := by
  unfold push
  dsimp only
  have h1 : ∀ (u : Tree) (k : Nat),
      ({ u with current := k } : Tree).activeNodeCount = u.activeNodeCount :=
    fun _ _ => rfl
  rw [h1, activeNodeCount_prepend]
  show (t.arena ++ [_]).countP _ = _
  rw [List.countP_append]
  rfl

end Tree

/-- The first in-context poll of an `Initial` wrapper when tracing is
enabled by the verbose check: a node for the span is pushed under the old
current node, the wrapper transitions to `Polled` (then to `Ready` if the
inner future finishes at once, popping the node again). -/
theorem initial_matched_poll (V : Bool) (c : Ctx) (span : Span) (inner : InnerPoll) (now : Nat)
    (cnd : NodeData) (hcur : c.tree.node? c.tree.current = some cnd)
    (hv : boolGe c.verbose V = true) :
    ∃ step, instrumentedPoll V (.initial span) (some c) inner now = .ok step ∧
      step.warning = none ∧ step.result = inner ∧
      ∃ t', step.tree = some t' ∧
      (inner = .pending → step.state = .polled c.tree.arena.length c.id ∧
        t'.arena.length = c.tree.arena.length + 1 ∧
        t'.current = c.tree.current ∧
        t'.node? c.tree.arena.length = some { span := span, start_time := now,
                                              parent := some c.tree.current,
                                              children := [], removed := false } ∧
        t'.node? c.tree.current
          = some { cnd with children := c.tree.arena.length :: cnd.children } ∧
        t'.activeNodeCount = c.tree.activeNodeCount + 1) ∧
      (inner = .ready → step.state = .ready ∧
        t'.activeNodeCount = c.tree.activeNodeCount) := by
  obtain ⟨hid, hcur2, hfresh, holdcur, hother, hlen⟩ := Tree.push_slots c.tree span now cnd hcur
  have hpoll : instrumentedPoll V (.initial span) (some c) inner now
      = afterInnerPoll (.polled (c.tree.push span now).2 c.id) (c.tree.push span now).1 inner := by
    unfold instrumentedPoll
    dsimp only
    rw [if_neg (by simp [hv])]
  rw [hpoll, hid]
  cases inner with
  | pending =>
    have hso : (c.tree.push span now).1.step_out
        = some { (c.tree.push span now).1 with current := c.tree.current } := by
      unfold Tree.step_out
      rw [hcur2, hfresh]
      simp
    refine ⟨⟨.polled c.tree.arena.length c.id,
        some { (c.tree.push span now).1 with current := c.tree.current }, true, none, .pending⟩,
      ?_, rfl, rfl, { (c.tree.push span now).1 with current := c.tree.current }, rfl, ?_, ?_⟩
    · unfold afterInnerPoll
      rw [hso]
    · intro _
      refine ⟨rfl, hlen, rfl, hfresh, holdcur, ?_⟩
      show (c.tree.push span now).1.activeNodeCount = _
      exact Tree.activeNodeCount_push c.tree span now
    · intro h
      cases h
  | ready =>
    obtain ⟨t2, hpop, hc2, hcount⟩ := Tree.pop_activeNodeCount (c.tree.push span now).1
      { span := span, start_time := now, parent := some c.tree.current,
        children := [], removed := false }
      c.tree.current (by rw [hcur2]; exact hfresh) rfl rfl
    refine ⟨⟨.ready, some t2, true, none, .ready⟩, ?_, rfl, rfl, t2, rfl, ?_, ?_⟩
    · unfold afterInnerPoll
      rw [hpop]
    · intro h
      cases h
    · intro _
      refine ⟨rfl, ?_⟩
      have hp := Tree.activeNodeCount_push c.tree span now
      omega

/-- A matched-context re-poll of a `Polled` wrapper: step in, poll the
inner future, then pop (Ready) or step out (Pending).  Under the
well-formedness side conditions this never panics, never warns, and on
Ready the active node count drops by exactly one. -/
theorem polled_matched_poll (V : Bool) (c : Ctx) (n : Nat) (inner : InnerPoll) (now : Nat)
    (cnd nnd : NodeData)
    (hcur : c.tree.node? c.tree.current = some cnd)
    (hn : c.tree.node? n = some nnd) (hne : n ≠ c.tree.current)
    (hlive : nnd.removed = false)
    (hcons : n ∈ cnd.children → nnd.parent = some c.tree.current)
    (hnp : nnd.parent ≠ some n) :
    ∃ step, instrumentedPoll V (.polled n c.id) (some c) inner now = .ok step ∧
      step.warning = none ∧ step.result = inner ∧
      (inner = .ready → step.state = .ready ∧ ∃ t', step.tree = some t' ∧
        t'.activeNodeCount + 1 = c.tree.activeNodeCount) ∧
      (inner = .pending → step.state = .polled n c.id) := by
  obtain ⟨hcur1, nnd', hn1, hp1, hr1⟩ :=
    Tree.step_in_node c.tree n cnd nnd hcur hn hne hcons hnp
  rw [hlive] at hr1
  have hpoll : instrumentedPoll V (.polled n c.id) (some c) inner now
      = afterInnerPoll (.polled n c.id) (c.tree.step_in n) inner := by
    unfold instrumentedPoll
    dsimp only
    rw [if_pos rfl]
  rw [hpoll]
  cases inner with
  | ready =>
    obtain ⟨t2, hpop, hcur2, hcount⟩ := Tree.pop_activeNodeCount (c.tree.step_in n) nnd'
      c.tree.current (by rw [hcur1]; exact hn1) hr1 hp1
    refine ⟨⟨.ready, some t2, true, none, .ready⟩, ?_, rfl, rfl, ?_, ?_⟩
    · unfold afterInnerPoll
      rw [hpop]
    · intro _
      exact ⟨rfl, t2, rfl, by rw [hcount, Tree.activeNodeCount_step_in]⟩
    · intro h
      cases h
  | pending =>
    have hso : (c.tree.step_in n).step_out
        = some { c.tree.step_in n with current := c.tree.current } := by
      unfold Tree.step_out
      rw [hcur1, hn1]
      simp [hp1]
    set t2 : Tree := { c.tree.step_in n with current := c.tree.current } with ht2
    refine ⟨⟨.polled n c.id, some t2, true, none, .pending⟩, ?_, rfl, rfl, ?_, fun _ => rfl⟩
    · unfold afterInnerPoll
      rw [hso]
    · intro h
      cases h

/-! ## Claim theorems -/

/-- C4: Transparency — with no ambient context at the first poll, polling an
`Instrumented` wrapper returns exactly the inner future's result, leaves the
state `Initial`, touches no tree and emits no warning; and dropping a
wrapper that never entered the `Polled` state (states `Initial` and
`Disabled`) performs no tree operation and emits no warning — both are
observably the bare inner poll / drop. -/
theorem transparency_outside_context :
    (∀ (V : Bool) (span : Span) (inner : InnerPoll) (now : Nat),
      instrumentedPoll V (.initial span) none inner now
        = .ok ⟨.initial span, none, false, none, inner⟩) ∧
    (∀ (span : Span) (amb : Option Ctx),
      instrumentedDrop (.initial span) amb = ⟨amb.map Ctx.tree, none⟩) ∧
    (∀ (amb : Option Ctx),
      instrumentedDrop .disabled amb = ⟨amb.map Ctx.tree, none⟩) :=
  ⟨fun _ _ _ _ => rfl, fun _ _ => rfl, fun _ => rfl⟩

/-- C10: once `Disabled`, every later poll — under any ambient context,
verbose or not — and the drop go straight to the inner future and never
touch any tree; a wrapper first polled outside any context stays `Initial`,
and its first poll that does happen inside a context (passing the verbose
check) still pushes a node for its span. -/
theorem disabled_absorbing_initial_retries :
    (∀ (V : Bool) (amb : Option Ctx) (inner : InnerPoll) (now : Nat),
      instrumentedPoll V .disabled amb inner now
        = .ok ⟨.disabled, amb.map Ctx.tree, false, none, inner⟩) ∧
    (∀ (amb : Option Ctx),
      instrumentedDrop .disabled amb = ⟨amb.map Ctx.tree, none⟩) ∧
    (∀ (V : Bool) (span : Span) (inner : InnerPoll) (now : Nat),
      instrumentedPoll V (.initial span) none inner now
        = .ok ⟨.initial span, none, false, none, inner⟩) ∧
    (∀ (V : Bool) (c : Ctx) (span : Span) (now : Nat) (cnd : NodeData),
      c.tree.node? c.tree.current = some cnd →
      boolGe c.verbose V = true →
      ∃ step, instrumentedPoll V (.initial span) (some c) .pending now = .ok step ∧
        step.state = .polled c.tree.arena.length c.id ∧
        ∃ t', step.tree = some t' ∧
          t'.node? c.tree.arena.length = some { span := span, start_time := now,
                                                parent := some c.tree.current,
                                                children := [], removed := false }) := by
  refine ⟨fun _ _ _ _ => rfl, fun _ => rfl, fun _ _ _ _ => rfl, ?_⟩
  intro V c span now cnd hcur hv
  obtain ⟨step, hok, _, _, t', ht', hpend, _⟩ :=
    initial_matched_poll V c span .pending now cnd hcur hv
  obtain ⟨hst, _, _, hfresh, _, _⟩ := hpend rfl
  exact ⟨step, hok, hst, t', ht', hfresh⟩

/-- C10 witness: a wrapper in `Disabled` stays transparent under a
verbose-true context, and an `Initial` wrapper first polled without a
context, then polled under a context, pushes its span. -/
theorem disabled_absorbing_initial_retries_witness :
    (∃ step, instrumentedPoll true (.initial (Span.new "x"))
        (some ⟨7, true, exRoot⟩) .pending 3 = .ok step ∧
      step.state = .polled 1 7 ∧
      ∃ t', step.tree = some t' ∧
        t'.node? 1 = some { span := Span.new "x", start_time := 3,
                            parent := some 0, children := [], removed := false }) :=
  disabled_absorbing_initial_retries.2.2.2 true ⟨7, true, exRoot⟩ (Span.new "x") 3
    { span := { name := "root", is_verbose := false, is_long_running := true },
      start_time := 0, parent := none, children := [], removed := false }
    rfl rfl

/-- C1: verbose gating — a wrapper with the compile-time verbose flag,
first polled under a context whose verbose config is off, transitions to
`Disabled`, leaves the tree untouched and polls the inner future directly;
under a verbose-on context it pushes a node for its span. -/
theorem verbose_gating (c : Ctx) (span : Span) (inner : InnerPoll) (now : Nat) :
    (c.verbose = false →
      instrumentedPoll true (.initial span) (some c) inner now
        = .ok ⟨.disabled, some c.tree, false, none, inner⟩) ∧
    (∀ cnd, c.tree.node? c.tree.current = some cnd → c.verbose = true →
      ∃ step, instrumentedPoll true (.initial span) (some c) .pending now = .ok step ∧
        step.state = .polled c.tree.arena.length c.id ∧
        ∃ t', step.tree = some t' ∧
          t'.arena.length = c.tree.arena.length + 1 ∧
          t'.node? c.tree.arena.length = some { span := span, start_time := now,
                                                parent := some c.tree.current,
                                                children := [], removed := false }) := by
  constructor
  · intro hv
    unfold instrumentedPoll
    dsimp only
    rw [hv]
    exact if_pos rfl
  · intro cnd hcur hv
    obtain ⟨step, hok, _, _, t', ht', hpend, _⟩ :=
      initial_matched_poll true c span .pending now cnd hcur (by rw [hv]; rfl)
    obtain ⟨hst, hlen, _, hfresh, _, _⟩ := hpend rfl
    exact ⟨step, hok, hst, t', ht', hlen, hfresh⟩

/-- C1 witness: the gating evaluated at a concrete context with verbose
off (wrapper disabled, tree untouched) and at one with verbose on (span
pushed). -/
theorem verbose_gating_witness :
    (instrumentedPoll true (.initial (Span.new "x")) (some ⟨7, false, exRoot⟩) .pending 3
      = .ok ⟨.disabled, some exRoot, false, none, .pending⟩) ∧
    (∃ step, instrumentedPoll true (.initial (Span.new "x"))
        (some ⟨9, true, exRoot⟩) .pending 3 = .ok step ∧
      step.state = .polled 1 9 ∧
      ∃ t', step.tree = some t' ∧ t'.arena.length = 2 ∧
        t'.node? 1 = some { span := Span.new "x", start_time := 3,
                            parent := some 0, children := [], removed := false }) :=
  ⟨(verbose_gating ⟨7, false, exRoot⟩ (Span.new "x") .pending 3).1 rfl,
   (verbose_gating ⟨9, true, exRoot⟩ (Span.new "x") .pending 3).2
     { span := { name := "root", is_verbose := false, is_long_running := true },
       start_time := 0, parent := none, children := [], removed := false }
     rfl rfl⟩

/-- C5: the core panics exactly on the three contract violations — polling
a `Ready` wrapper, `pop` with a parentless (root) current node, `step_out`
with a parentless (root) current node — while the environmental anomalies
(poll or drop with a missing or mismatched context) return normally with
only a warning, and the remaining poll paths return normally under the
well-formedness conditions every reachable tree satisfies. -/
theorem panics_exactly_contract_violations :
    (∀ (V : Bool) (amb : Option Ctx) (inner : InnerPoll) (now : Nat),
      instrumentedPoll V .ready amb inner now = .error .polledAfterReady) ∧
    (∀ (t : Tree) (nd : NodeData), t.node? t.current = some nd →
      (t.pop = none ↔ nd.parent = none) ∧ (t.step_out = none ↔ nd.parent = none)) ∧
    (∀ (t : Tree) (nd : NodeData), t.node? t.current = some nd →
      (nd.parent = none ↔ t.current = t.root) →
      (t.pop = none ↔ t.current = t.root) ∧ (t.step_out = none ↔ t.current = t.root)) ∧
    (∀ (V : Bool) (n cid : Nat) (inner : InnerPoll) (now : Nat),
      instrumentedPoll V (.polled n cid) none inner now
        = .ok ⟨.polled n cid, none, false, some .polledNotInContext, inner⟩) ∧
    (∀ (V : Bool) (c : Ctx) (n cid : Nat) (inner : InnerPoll) (now : Nat), c.id ≠ cid →
      instrumentedPoll V (.polled n cid) (some c) inner now
        = .ok ⟨.polled n cid, some c.tree, false, some .polledDifferentContext, inner⟩) ∧
    (∀ (n cid : Nat),
      instrumentedDrop (.polled n cid) none = ⟨none, some .droppedNotInContext⟩) ∧
    (∀ (c : Ctx) (n cid : Nat), c.id ≠ cid →
      instrumentedDrop (.polled n cid) (some c)
        = ⟨some c.tree, some .droppedDifferentContext⟩) ∧
    (∀ (V : Bool) (span : Span) (inner : InnerPoll) (now : Nat),
      instrumentedPoll V (.initial span) none inner now
        = .ok ⟨.initial span, none, false, none, inner⟩) ∧
    (∀ (V : Bool) (c : Ctx) (span : Span) (inner : InnerPoll) (now : Nat) (cnd : NodeData),
      c.tree.node? c.tree.current = some cnd →
      ∃ step, instrumentedPoll V (.initial span) (some c) inner now = .ok step) ∧
    (∀ (V : Bool) (c : Ctx) (n : Nat) (inner : InnerPoll) (now : Nat) (cnd nnd : NodeData),
      c.tree.node? c.tree.current = some cnd → c.tree.node? n = some nnd →
      n ≠ c.tree.current → nnd.removed = false →
      (n ∈ cnd.children → nnd.parent = some c.tree.current) →
      nnd.parent ≠ some n →
      ∃ step, instrumentedPoll V (.polled n c.id) (some c) inner now = .ok step) := by
  have hpopiff : ∀ (t : Tree) (nd : NodeData), t.node? t.current = some nd →
      (t.pop = none ↔ nd.parent = none) ∧ (t.step_out = none ↔ nd.parent = none) := by
    intro t nd hnd
    constructor
    · constructor
      · intro hp
        cases hq : nd.parent with
        | none => rfl
        | some q =>
          rw [show t.pop = some { t.remove_and_detach t.current with current := q } by
            simp [Tree.pop, hnd, hq]] at hp
          cases hp
      · intro hq
        simp [Tree.pop, hnd, hq]
    · constructor
      · intro hp
        cases hq : nd.parent with
        | none => rfl
        | some q =>
          rw [show t.step_out = some { t with current := q } by
            simp [Tree.step_out, hnd, hq]] at hp
          cases hp
      · intro hq
        simp [Tree.step_out, hnd, hq]
  refine ⟨fun _ _ _ _ => rfl, hpopiff, ?_, fun _ _ _ _ _ => rfl, ?_, fun _ _ => rfl, ?_,
    fun _ _ _ _ => rfl, ?_, ?_⟩
  · intro t nd hnd hiff
    obtain ⟨h1, h2⟩ := hpopiff t nd hnd
    exact ⟨h1.trans hiff, h2.trans hiff⟩
  · intro V c n cid inner now hne
    unfold instrumentedPoll
    dsimp only
    rw [if_neg hne]
  · intro c n cid hne
    unfold instrumentedDrop
    dsimp only
    rw [if_neg hne]
  · intro V c span inner now cnd hcur
    by_cases hb : boolGe c.verbose V = true
    · obtain ⟨step, hok, _⟩ := initial_matched_poll V c span inner now cnd hcur hb
      exact ⟨step, hok⟩
    · refine ⟨⟨.disabled, some c.tree, false, none, inner⟩, ?_⟩
      unfold instrumentedPoll
      dsimp only
      exact if_pos (Bool.not_eq_true _ ▸ hb)
  · intro V c n inner now cnd nnd hcur hn hne hlive hcons hnp
    obtain ⟨step, hok, _⟩ := polled_matched_poll V c n inner now cnd nnd hcur hn hne
      hlive hcons hnp
    exact ⟨step, hok⟩

/-- C5 witness: the panic and warning behaviour at concrete inputs — pop
and step_out at the root of a concrete one-node tree fail exactly because
the root is parentless, a mismatched context only warns, and a matched
re-poll on a concrete two-node tree returns normally. -/
theorem panics_exactly_contract_violations_witness :
    ((exRoot.pop = none ↔ (none : Option Nat) = none) ∧
      (exRoot.step_out = none ↔ (none : Option Nat) = none)) ∧
    (instrumentedPoll false (.polled 1 3) (some ⟨4, false, exRoot⟩) .pending 0
      = .ok ⟨.polled 1 3, some exRoot, false, some .polledDifferentContext, .pending⟩) ∧
    (instrumentedDrop (.polled 1 3) (some ⟨4, false, exRoot⟩)
      = ⟨some exRoot, some .droppedDifferentContext⟩) ∧
    (∃ step, instrumentedPoll false (.initial (Span.new "y"))
        (some ⟨4, false, exRoot⟩) .ready 5 = .ok step) ∧
    (∃ step, instrumentedPoll false (.polled 1 4)
        (some ⟨4, false, s7tree⟩) .ready 5 = .ok step) :=
  ⟨panics_exactly_contract_violations.2.1 exRoot
    { span := { name := "root", is_verbose := false, is_long_running := true },
      start_time := 0, parent := none, children := [], removed := false } rfl,
   panics_exactly_contract_violations.2.2.2.2.1 false ⟨4, false, exRoot⟩ 1 3 .pending 0
     (by decide),
   panics_exactly_contract_violations.2.2.2.2.2.2.1 ⟨4, false, exRoot⟩ 1 3 (by decide),
   panics_exactly_contract_violations.2.2.2.2.2.2.2.2.1 false ⟨4, false, exRoot⟩
     (Span.new "y") .ready 5
     { span := { name := "root", is_verbose := false, is_long_running := true },
       start_time := 0, parent := none, children := [], removed := false } rfl,
   panics_exactly_contract_violations.2.2.2.2.2.2.2.2.2 false ⟨4, false, s7tree⟩ 1 .ready 5
     { span := { name := "root", is_verbose := false, is_long_running := true },
       start_time := 0, parent := none, children := [3, 2, 1], removed := false }
     { span := { name := "b", is_verbose := false, is_long_running := false },
       start_time := 3, parent := some 0, children := [], removed := false }
     rfl rfl (by decide) rfl (fun _ => rfl) (by decide)⟩

/-- C2: `pop` with a live, parented current node moves `current` to the
former parent, marks exactly that one slot removed (every other slot keeps
its removed flag), promotes each of its children to detached roots — they
stay in the arena with their data, merely losing their parent — and drops
the active node count by exactly one; consequently a matched-context poll
whose inner future resolves `Ready` ends with the active node count lower
by exactly one. -/
theorem pop_removes_exactly_current :
    (∀ (t : Tree) (nd : NodeData) (q : Nat),
      t.node? t.current = some nd → nd.parent = some q → nd.removed = false →
      q ≠ t.current → t.current ∉ nd.children → q ∉ nd.children →
      ∃ t', t.pop = some t' ∧
        t'.current = q ∧
        t'.node? t.current
          = some { nd with removed := true, parent := none, children := [] } ∧
        (∀ j, j ≠ t.current →
          (t'.node? j).map NodeData.removed = (t.node? j).map NodeData.removed) ∧
        (∀ c ∈ nd.children,
          t'.node? c = (t.node? c).map fun n => { n with parent := none }) ∧
        t'.activeNodeCount + 1 = t.activeNodeCount) ∧
    (∀ (V : Bool) (c : Ctx) (n : Nat) (now : Nat) (cnd nnd : NodeData),
      c.tree.node? c.tree.current = some cnd → c.tree.node? n = some nnd →
      n ≠ c.tree.current → nnd.removed = false →
      (n ∈ cnd.children → nnd.parent = some c.tree.current) →
      nnd.parent ≠ some n →
      ∃ step, instrumentedPoll V (.polled n c.id) (some c) .ready now = .ok step ∧
        step.state = .ready ∧
        ∃ t', step.tree = some t' ∧
          t'.activeNodeCount + 1 = c.tree.activeNodeCount) := by
  constructor
  · intro t nd q hnd hq hlive hqne hself hqc
    have hpop : t.pop = some { t.remove_and_detach t.current with current := q } := by
      simp [Tree.pop, hnd, hq]
    obtain ⟨r1, r2, r3, r4⟩ :=
      Tree.remove_and_detach_slots t t.current nd q hnd hq hqne hself hqc
    obtain ⟨t2, hpop2, _, hcount⟩ := Tree.pop_activeNodeCount t nd q hnd hlive hq
    rw [hpop] at hpop2
    injection hpop2 with ht2
    refine ⟨{ t.remove_and_detach t.current with current := q }, hpop, rfl, r1, ?_, r2, ?_⟩
    · intro j hj
      have hnodecong : ∀ x,
          ({ t.remove_and_detach t.current with current := q } : Tree).node? x
            = (t.remove_and_detach t.current).node? x := fun _ => rfl
      rw [hnodecong]
      by_cases hjq : j = q
      · subst hjq
        rw [r3]
        cases t.node? j <;> rfl
      · by_cases hjc : j ∈ nd.children
        · rw [r2 j hjc]
          cases t.node? j <;> rfl
        · rw [r4 j hj hjq hjc]
    · have : ({ t.remove_and_detach t.current with current := q } : Tree).activeNodeCount
          = t2.activeNodeCount := by rw [ht2]
      rw [this]
      exact hcount
  · intro V c n now cnd nnd hcur hn hne hlive hcons hnp
    obtain ⟨step, hok, _, _, hready, _⟩ :=
      polled_matched_poll V c n .ready now cnd nnd hcur hn hne hlive hcons hnp
    obtain ⟨hst, t', ht', hcount⟩ := hready rfl
    exact ⟨step, hok, hst, t', ht', hcount⟩

/-- C2 witness: popping the child `b` of the concrete S7 tree (current
moved onto `b` first) removes exactly that node and drops the count from 4
to 3; the matched ready-poll on the same tree drops the count by one. -/
theorem pop_removes_exactly_current_witness :
    (∃ t', (s7tree.step_in 1).pop = some t' ∧
      t'.current = 0 ∧
      t'.node? 1 = some { span := Span.new "b", start_time := 3,
                          removed := true, parent := none, children := [] } ∧
      (∀ j, j ≠ 1 →
        (t'.node? j).map NodeData.removed
          = ((s7tree.step_in 1).node? j).map NodeData.removed) ∧
      (∀ c ∈ ([] : List Nat),
        t'.node? c = ((s7tree.step_in 1).node? c).map fun n => { n with parent := none }) ∧
      t'.activeNodeCount + 1 = (s7tree.step_in 1).activeNodeCount) ∧
    (∃ step, instrumentedPoll false (.polled 1 4) (some ⟨4, false, s7tree⟩) .ready 9
        = .ok step ∧ step.state = .ready ∧
      ∃ t', step.tree = some t' ∧ t'.activeNodeCount + 1 = s7tree.activeNodeCount) :=
  ⟨pop_removes_exactly_current.1 (s7tree.step_in 1)
    { span := Span.new "b", start_time := 3, parent := some 0,
      children := [], removed := false } 0
    (by decide) rfl rfl (by decide) (by decide) (by decide),
   pop_removes_exactly_current.2 false ⟨4, false, s7tree⟩ 1 9
     { span := { name := "root", is_verbose := false, is_long_running := true },
       start_time := 0, parent := none, children := [3, 2, 1], removed := false }
     { span := Span.new "b", start_time := 3, parent := some 0,
       children := [], removed := false }
     rfl rfl (by decide) rfl (fun _ => rfl) (by decide)⟩

/-- `find?` is unchanged by a map that fixes every element satisfying the
predicate and preserves the predicate's value elsewhere. -/
theorem find?_map_invar {α : Type} (p : α → Bool) (f : α → α) (l : List α)
    (h : ∀ x, p (f x) = p x) (h2 : ∀ x, p x = true → f x = x) :
    (l.map f).find? p = l.find? p := by
  induction l with
  | nil => rfl
  | cons x xs ih =>
    rw [List.map_cons]
    cases hb : p x with
    | true =>
      rw [List.find?_cons_of_pos _ ((h x).trans hb), List.find?_cons_of_pos _ hb, h2 x hb]
    | false =>
      rw [List.find?_cons_of_neg _ (by rw [h x, hb]; exact Bool.false_ne_true),
        List.find?_cons_of_neg _ (by rw [hb]; exact Bool.false_ne_true), ih]

/-- C9: a user-keyed `get` is completely blind to anonymously registered
trees — registering an anonymous tree changes no `get` result for any user
key (the private `AnonymousKey` type never compares equal to an erased
user key) — while `collect_anonymous` returns exactly the trees of the
live anonymous entries. -/
theorem anonymous_invisible_to_get :
    (∀ (r : Registry) (span : Span) (now : Nat) (k : UserKey),
      ((r.register_anonymous span now).1).get k = r.get k) ∧
    (∀ (k : UserKey) (id : Nat), AnyKey.user k ≠ AnyKey.anonymous id) ∧
    (∀ (r : Registry) (t : Tree),
      t ∈ r.collect_anonymous ↔
        ∃ id c, (AnyKey.anonymous id, some c) ∈ r.contexts ∧ t = c.tree) := by
  refine ⟨?_, ?_, ?_⟩
  · intro r span now k
    have hmain : ∀ (m : List (AnyKey × Option RegCtx)) (anonId : Nat) (ctx : RegCtx),
        (insertCtx m (.anonymous anonId) ctx).find? (fun kv => kv.1 = AnyKey.user k)
          = m.find? (fun kv => kv.1 = AnyKey.user k) := by
      intro m anonId ctx
      unfold insertCtx
      split
      · apply find?_map_invar
        · intro x
          by_cases hx : x.1 = AnyKey.anonymous anonId
          · rw [if_pos hx]
            simp [hx]
          · rw [if_neg hx]
        · intro x hx
          simp only [decide_eq_true_eq] at hx
          rw [if_neg (fun hcon => by rw [hx] at hcon; cases hcon)]
      · rw [List.find?_append]
        have hnone : List.find? (fun kv => decide (kv.1 = AnyKey.user k))
            [((AnyKey.anonymous anonId : AnyKey), (some ctx : Option RegCtx))] = none := by
          rw [List.find?_eq_none]
          intro x hx
          simp only [List.mem_singleton] at hx
          rw [hx]
          simp
        rw [hnone, Option.or_none]
    show ((insertCtx r.contexts (.anonymous r.nextId) _).find?
        (fun kv => kv.1 = AnyKey.user k)).bind _ = _
    rw [hmain r.contexts r.nextId
      { id := r.nextId, verbose := r.config_verbose, tree := treeContextNew span now }]
    rfl
  · intro k id h
    cases h
  · intro r t
    constructor
    · intro ht
      obtain ⟨kv, hmem, hg⟩ := List.mem_filterMap.mp ht
      obtain ⟨k1, v1⟩ := kv
      cases k1 with
      | user k => cases v1 <;> cases hg
      | anonymous id =>
        cases v1 with
        | none => cases hg
        | some c =>
          refine ⟨id, c, hmem, ?_⟩
          have : some c.tree = some t := hg
          injection this with h
          exact h.symm
    · rintro ⟨id, c, hmem, rfl⟩
      exact List.mem_filterMap.mpr ⟨(.anonymous id, some c), hmem, rfl⟩

/-- C9 witness: the registry behaviour at a concrete registry with one
user entry. -/
theorem anonymous_invisible_to_get_witness :
    ((regEx.register_anonymous (Span.new "anon") 7).1).get ⟨1, 5⟩ = regEx.get ⟨1, 5⟩ ∧
    AnyKey.user ⟨1, 5⟩ ≠ AnyKey.anonymous 1 ∧
    (treeContextNew (Span.new "anon") 7 ∈
        ((regEx.register_anonymous (Span.new "anon") 7).1).collect_anonymous ↔
      ∃ id c, (AnyKey.anonymous id, some c)
          ∈ ((regEx.register_anonymous (Span.new "anon") 7).1).contexts ∧
        treeContextNew (Span.new "anon") 7 = c.tree) :=
  ⟨anonymous_invisible_to_get.1 regEx (Span.new "anon") 7 ⟨1, 5⟩,
   anonymous_invisible_to_get.2.1 ⟨1, 5⟩ 1,
   anonymous_invisible_to_get.2.2 (regEx.register_anonymous (Span.new "anon") 7).1
     (treeContextNew (Span.new "anon") 7)⟩

/-! ## Display lemmas -/

/-- `pad3` always renders exactly three characters. -/
theorem pad3_length (n : Nat) : (pad3 n).length = 3 :=
  rfl

/-- `fmtDuration3` always renders an integer part, a dot, exactly three
fractional digits and one SI-prefixed unit. -/
theorem fmtDuration3_shape (ns : Nat) :
    ∃ (ip : Nat) (frac unit : String),
      fmtDuration3 ns = toString ip ++ "." ++ frac ++ unit ∧
      frac.length = 3 ∧ (unit = "s" ∨ unit = "ms" ∨ unit = "µs" ∨ unit = "ns") := by
  unfold fmtDuration3 fmtScaled
  split
  · exact ⟨_, _, "s", rfl, pad3_length _, Or.inl rfl⟩
  split
  · exact ⟨_, _, "ms", rfl, pad3_length _, Or.inr (Or.inl rfl)⟩
  split
  · exact ⟨_, _, "µs", rfl, pad3_length _, Or.inr (Or.inr (Or.inl rfl))⟩
  · exact ⟨_, _, "ns", rfl, pad3_length _, Or.inr (Or.inr (Or.inr rfl))⟩

/-- Every entry of the traversal sits at or below the starting depth. -/
theorem displayEntriesAux_depth_ge (t : Tree) :
    ∀ (fuel i d : Nat) (e : Nat × Nat), e ∈ displayEntriesAux t fuel i d → d ≤ e.2 := by
  intro fuel
  induction fuel with
  | zero =>
    intro i d e h
    cases h
  | succ f ih =>
    intro i d e h
    have hu : displayEntriesAux t (f + 1) i d
        = (i, d) :: (sortChildren t (childrenOf t i)).flatMap
            (fun c => displayEntriesAux t f c (d + 1)) := rfl
    rw [hu] at h
    rcases List.mem_cons.mp h with h | h
    · rw [h]
    · obtain ⟨c, _, hmem⟩ := List.mem_flatMap.mp h
      have := ih c (d + 1) e hmem
      omega

/-- The only entry of the traversal at the starting depth is the starting
node itself. -/
theorem displayEntriesAux_depth_eq (t : Tree) :
    ∀ (fuel i d : Nat) (e : Nat × Nat),
      e ∈ displayEntriesAux t fuel i d → e.2 = d → e.1 = i := by
  intro fuel
  induction fuel with
  | zero =>
    intro i d e h
    cases h
  | succ f ih =>
    intro i d e h hd
    have hu : displayEntriesAux t (f + 1) i d
        = (i, d) :: (sortChildren t (childrenOf t i)).flatMap
            (fun c => displayEntriesAux t f c (d + 1)) := rfl
    rw [hu] at h
    rcases List.mem_cons.mp h with h | h
    · rw [h]
    · obtain ⟨c, _, hmem⟩ := List.mem_flatMap.mp h
      have := displayEntriesAux_depth_ge t f c (d + 1) e hmem
      omega

/-- C3 counterexample: the depth-0 (root) line of the display does render
the elapsed time — `root [1.000s]`, not `root` alone as the claim's
depth-0 exception asserts. -/
theorem display_root_line_counterexample :
    exRoot.display 1000000000 = "root [1.000s]\n" ∧
    exRoot.display 1000000000 ≠ "root\n" :=
  ⟨rfl, by decide⟩

/-- C3 amended: every node line of the display — the depth-0 root line
included — renders `name [elapsed]`, the elapsed time with exactly three
fractional digits and an SI-prefixed unit (preceded by the stale marker
when applicable); the only thing suppressed at depth 0 is the
`  <== current` marker. -/
theorem display_line_format (t : Tree) (now : Nat) (e : Nat × Nat) (nd : NodeData)
    (he : e ∈ t.nodeEntries) (hnd : t.node? e.1 = some nd) :
    ∃ (ip : Nat) (frac unit : String),
      entryLine t now e
        = indent e.2 ++ nd.span.name ++ " [" ++ staleMark nd.span (now - nd.start_time)
          ++ toString ip ++ "." ++ frac ++ unit ++ "]"
          ++ (if e.2 > 0 && (e.1 == t.current) then "  <== current" else "") ++ "\n" ∧
      frac.length = 3 ∧ (unit = "s" ∨ unit = "ms" ∨ unit = "µs" ∨ unit = "ns") := by
  obtain ⟨ip, frac, unit, hfmt, hlen, hunit⟩ := fmtDuration3_shape (now - nd.start_time)
  refine ⟨ip, frac, unit, ?_, hlen, hunit⟩
  unfold entryLine renderLine
  rw [hnd]
  dsimp only
  rw [hfmt]
  simp [String.append_assoc]

/-- C3 witness: the line format at the root entry of the concrete one-node
tree. -/
theorem display_line_format_witness :
    ∃ (ip : Nat) (frac unit : String),
      entryLine exRoot 1000000000 (0, 0)
        = indent 0 ++ "root" ++ " ["
          ++ staleMark { name := "root", is_verbose := false, is_long_running := true }
              (1000000000 - 0)
          ++ toString ip ++ "." ++ frac ++ unit ++ "]"
          ++ (if (0 : Nat) > 0 && ((0 : Nat) == exRoot.current) then "  <== current" else "")
          ++ "\n" ∧
      frac.length = 3 ∧ (unit = "s" ∨ unit = "ms" ∨ unit = "µs" ∨ unit = "ns") :=
  display_line_format exRoot 1000000000 (0, 0)
    { span := { name := "root", is_verbose := false, is_long_running := true },
      start_time := 0, parent := none, children := [], removed := false }
    (by decide) rfl

/-- Serialization never changes a node's id. -/
theorem serializeNode_id (t : Tree) (now fuel i : Nat) :
    (serializeNode t now fuel i).id = i := by
  cases fuel with
  | zero => rfl
  | succ f =>
    unfold serializeNode
    split <;> rfl

/-- C8: at every node and every level, the serialized children are sorted
by ascending start time of the corresponding arena slots; `push` prepends
the fresh child at the *front* of its parent's children list regardless;
and the S7 scenario — children pushed in order `b`, `a`, `c` with start
times 3, 1, 2 — displays them in the order `a`, `c`, `b`. -/
theorem children_sorted_by_start :
    (∀ (t : Tree) (now fuel i : Nat), serSortedByStart t (serializeNode t now fuel i)) ∧
    (∀ (t : Tree) (span : Span) (now : Nat) (nd : NodeData),
      t.node? t.current = some nd →
      (t.push span now).1.node? t.current
        = some { nd with children := t.arena.length :: nd.children }) ∧
    s7tree.display 10
      = "root [10.000ns]\n  a [9.000ns]\n  c [8.000ns]\n  b [7.000ns]\n" := by
  refine ⟨?_, ?_, rfl⟩
  · intro t now fuel
    induction fuel with
    | zero =>
      intro i
      show serSortedByStart t (.mk i (Span.new "") 0 [])
      rw [serSortedByStart]
      exact ⟨List.sorted_nil, fun c hc => absurd hc (List.not_mem_nil c)⟩
    | succ f ih =>
      intro i
      unfold serializeNode
      split
      · rw [serSortedByStart]
        exact ⟨List.sorted_nil, fun c hc => absurd hc (List.not_mem_nil c)⟩
      · rename_i nd hnd
        rw [serSortedByStart]
        constructor
        · have hmap : ((sortChildren t nd.children).map
                (fun c => serializeNode t now f c)).map (fun c => startKey t c.id)
              = (sortChildren t nd.children).map (startKey t) := by
            rw [List.map_map]
            apply List.map_congr_left
            intro a _
            show startKey t (serializeNode t now f a).id = startKey t a
            rw [serializeNode_id]
          rw [hmap]
          have htot : IsTotal Nat (fun a b => startKey t a ≤ startKey t b) :=
            ⟨fun a b => Nat.le_total _ _⟩
          have htrans : IsTrans Nat (fun a b => startKey t a ≤ startKey t b) :=
            ⟨fun _ _ _ h1 h2 => le_trans h1 h2⟩
          have hs := List.sorted_insertionSort (fun a b => startKey t a ≤ startKey t b)
            nd.children
          exact (List.pairwise_map).mpr hs
        · intro c hc
          obtain ⟨c', _, rfl⟩ := List.mem_map.mp hc
          exact ih c'
  · intro t span now nd hcur
    exact (Tree.push_slots t span now nd hcur).2.2.2.1

/-- C8 witness: the push-prepend fact at the concrete S7 tree. -/
theorem children_sorted_by_start_witness :
    (s7tree.push (Span.new "d") 9).1.node? s7tree.current
      = some { span := { name := "root", is_verbose := false, is_long_running := true },
               start_time := 0, parent := none, removed := false,
               children := 4 :: [3, 2, 1] } :=
  children_sorted_by_start.2.1 s7tree (Span.new "d") 9
    { span := { name := "root", is_verbose := false, is_long_running := true },
      start_time := 0, parent := none, children := [3, 2, 1], removed := false }
    rfl

/-- C7: context creation forces the root span long-running; and on any
tree whose root span is long-running — the invariant every context tree
satisfies — a displayed node line carries the `!!! ` stale marker exactly
when its elapsed time reaches the ten-second threshold, its span is not
long-running, and its depth is positive (the root line, the only depth-0
line, can never carry it because the root is long-running). -/
theorem stale_mark_exactly :
    (∀ (span : Span) (now : Nat),
      ((treeContextNew span now).node? (treeContextNew span now).root).map
          (fun nd => nd.span.is_long_running) = some true) ∧
    (∀ (t : Tree) (now : Nat) (rootNd : NodeData),
      t.node? t.root = some rootNd → rootNd.span.is_long_running = true →
      ∀ e ∈ t.nodeEntries, ∀ nd, t.node? e.1 = some nd →
        (staleMark nd.span (now - nd.start_time) = "!!! " ↔
          (10 ≤ (now - nd.start_time) / 1000000000 ∧
            nd.span.is_long_running = false ∧ 0 < e.2))) := by
  constructor
  · intro span now
    rfl
  · intro t now rootNd hroot hlr e he nd hnd
    constructor
    · intro hm
      unfold staleMark at hm
      split at hm
      · rename_i hcond
        refine ⟨hcond.2, hcond.1, ?_⟩
        by_contra h0
        have he2 : e.2 = 0 := by omega
        have hmain : e ∈ t.mainEntries := by
          rcases List.mem_append.mp he with h | h
          · exact h
          · exfalso
            obtain ⟨n, _, hmem⟩ := List.mem_flatMap.mp h
            have := displayEntriesAux_depth_ge t _ n 1 e hmem
            omega
        have hid := displayEntriesAux_depth_eq t _ t.root 0 e hmain he2
        rw [hid] at hnd
        rw [hnd] at hroot
        injection hroot with hh
        have hf := hcond.1
        rw [hh, hlr] at hf
        cases hf
      · exact absurd hm (by decide)
    · rintro ⟨h10, hlrf, _⟩
      unfold staleMark
      rw [if_pos ⟨hlrf, h10⟩]

/-- C7 witness: on the concrete S7 tree observed twenty seconds in, the
child `b` at depth 1 carries the marker and the iff instantiates. -/
theorem stale_mark_exactly_witness :
    staleMark (Span.new "b") (20000000000 - 3) = "!!! " ↔
      (10 ≤ (20000000000 - 3) / 1000000000 ∧
        (Span.new "b").is_long_running = false ∧ (0 : Nat) < 1) :=
  stale_mark_exactly.2 s7tree 20000000000
    { span := { name := "root", is_verbose := false, is_long_running := true },
      start_time := 0, parent := none, children := [3, 2, 1], removed := false }
    rfl rfl (1, 1) (by decide)
    { span := Span.new "b", start_time := 3, parent := some 0,
      children := [], removed := false }
    rfl

/-! ## Stable-sort and display congruence lemmas -/

/-- A list sorted by a key with pairwise-distinct key values is strictly
sorted by the key. -/
theorem sorted_le_nodup_strict (k : Nat → Nat) (l : List Nat)
    (hs : List.Pairwise (fun a b => k a ≤ k b) l)
    (hn : (l.map k).Nodup) :
    List.Pairwise (fun a b => k a < k b) l := by
  have hne : List.Pairwise (fun a b => k a ≠ k b) l := List.pairwise_map.mp hn
  exact (hs.and hne).imp fun h => lt_of_le_of_ne h.1 h.2

/-- Two permuted child lists with pairwise-distinct start keys sort to the
same list, even across two trees that agree on start keys. -/
theorem sortChildren_perm_eq (t1 t2 : Tree) (l1 l2 : List Nat)
    (hk : ∀ x, startKey t1 x = startKey t2 x)
    (hp : l1.Perm l2) (hnd : (l1.map (startKey t1)).Nodup) :
    sortChildren t1 l1 = sortChildren t2 l2 := by
  unfold sortChildren
  haveI h1t : IsTotal Nat (fun a b => startKey t1 a ≤ startKey t1 b) :=
    ⟨fun a b => Nat.le_total _ _⟩
  haveI h1r : IsTrans Nat (fun a b => startKey t1 a ≤ startKey t1 b) :=
    ⟨fun _ _ _ h1 h2 => le_trans h1 h2⟩
  haveI h2t : IsTotal Nat (fun a b => startKey t2 a ≤ startKey t2 b) :=
    ⟨fun a b => Nat.le_total _ _⟩
  haveI h2r : IsTrans Nat (fun a b => startKey t2 a ≤ startKey t2 b) :=
    ⟨fun _ _ _ h1 h2 => le_trans h1 h2⟩
  have hperm1 := List.perm_insertionSort (fun a b => startKey t1 a ≤ startKey t1 b) l1
  have hperm2 := List.perm_insertionSort (fun a b => startKey t2 a ≤ startKey t2 b) l2
  have hptot : (List.insertionSort (fun a b => startKey t1 a ≤ startKey t1 b) l1).Perm
      (List.insertionSort (fun a b => startKey t2 a ≤ startKey t2 b) l2) :=
    hperm1.trans (hp.trans hperm2.symm)
  have hs1 : List.Pairwise (fun a b => startKey t1 a ≤ startKey t1 b)
      (List.insertionSort (fun a b => startKey t1 a ≤ startKey t1 b) l1) :=
    List.sorted_insertionSort _ l1
  have hs2 : List.Pairwise (fun a b => startKey t1 a ≤ startKey t1 b)
      (List.insertionSort (fun a b => startKey t2 a ≤ startKey t2 b) l2) := by
    refine (List.sorted_insertionSort (fun a b => startKey t2 a ≤ startKey t2 b) l2).imp ?_
    intro a b h
    rw [hk a, hk b]
    exact h
  have hn1 : ((List.insertionSort (fun a b => startKey t1 a ≤ startKey t1 b) l1).map
      (startKey t1)).Nodup :=
    ((hperm1.map (startKey t1)).symm).nodup hnd
  have hn2 : ((List.insertionSort (fun a b => startKey t2 a ≤ startKey t2 b) l2).map
      (startKey t1)).Nodup :=
    ((hptot.map (startKey t1))).nodup hn1
  haveI : IsAntisymm Nat (fun a b => startKey t1 a < startKey t1 b) :=
    ⟨fun a b hab hba => absurd (lt_trans hab hba) (lt_irrefl _)⟩
  exact List.eq_of_perm_of_sorted hptot
    (sorted_le_nodup_strict (startKey t1) _ hs1 hn1)
    (sorted_le_nodup_strict (startKey t1) _ hs2 hn2)

/-- The traversal is identical on two trees that agree on node payloads
and whose children lists are permutations with distinct start keys. -/
theorem displayEntriesAux_congr (t1 t2 : Tree)
    (hdata : ∀ j, (t1.node? j).map (fun x => (x.span, x.start_time, x.removed))
      = (t2.node? j).map (fun x => (x.span, x.start_time, x.removed)))
    (hch : ∀ j, (childrenOf t1 j).Perm (childrenOf t2 j))
    (hnodup : ∀ j, ((childrenOf t1 j).map (startKey t1)).Nodup) :
    ∀ (fuel i d : Nat), displayEntriesAux t1 fuel i d = displayEntriesAux t2 fuel i d := by
  have hk : ∀ x, startKey t1 x = startKey t2 x := by
    intro x
    have hx := hdata x
    unfold startKey
    cases h1 : t1.node? x with
    | none =>
      cases h2 : t2.node? x with
      | none => rfl
      | some v =>
        rw [h1, h2] at hx
        cases hx
    | some v =>
      cases h2 : t2.node? x with
      | none =>
        rw [h1, h2] at hx
        cases hx
      | some w =>
        rw [h1, h2] at hx
        simp only [Option.map_some', Option.some.injEq, Prod.mk.injEq] at hx
        dsimp only
        rw [hx.2.1]
  have hsort : ∀ j, sortChildren t1 (childrenOf t1 j) = sortChildren t2 (childrenOf t2 j) :=
    fun j => sortChildren_perm_eq t1 t2 _ _ hk (hch j) (hnodup j)
  intro fuel
  induction fuel with
  | zero =>
    intro i d
    rfl
  | succ f ih =>
    intro i d
    have hu1 : displayEntriesAux t1 (f + 1) i d
        = (i, d) :: (sortChildren t1 (childrenOf t1 i)).flatMap
            (fun c => displayEntriesAux t1 f c (d + 1)) := rfl
    have hu2 : displayEntriesAux t2 (f + 1) i d
        = (i, d) :: (sortChildren t2 (childrenOf t2 i)).flatMap
            (fun c => displayEntriesAux t2 f c (d + 1)) := rfl
    rw [hu1, hu2, hsort i]
    have hf : (fun c => displayEntriesAux t1 f c (d + 1))
        = fun c => displayEntriesAux t2 f c (d + 1) :=
      funext fun c => ih c (d + 1)
    rw [hf]

/-- A node line is identical on two trees that agree on node payloads and
the current pointer. -/
theorem entryLine_congr (t1 t2 : Tree) (now : Nat)
    (hdata : ∀ j, (t1.node? j).map (fun x => (x.span, x.start_time, x.removed))
      = (t2.node? j).map (fun x => (x.span, x.start_time, x.removed)))
    (hcur : t1.current = t2.current) :
    ∀ e, entryLine t1 now e = entryLine t2 now e := by
  intro e
  have hx := hdata e.1
  unfold entryLine
  cases h1 : t1.node? e.1 with
  | none =>
    cases h2 : t2.node? e.1 with
    | none => rfl
    | some v =>
      rw [h1, h2] at hx
      cases hx
  | some v =>
    cases h2 : t2.node? e.1 with
    | none =>
      rw [h1, h2] at hx
      cases hx
    | some w =>
      rw [h1, h2] at hx
      simp only [Option.map_some', Option.some.injEq, Prod.mk.injEq] at hx
      unfold renderLine
      dsimp only
      rw [hx.1, hx.2.1, hcur]

/-- The detached-roots list is identical on two trees that agree on arena
size, root and the parent/removed fields. -/
theorem detachedRoots_congr (t1 t2 : Tree)
    (hlen : t1.arena.length = t2.arena.length) (hroot : t1.root = t2.root)
    (hpr : ∀ j, (t1.node? j).map (fun x => (x.parent, x.removed))
      = (t2.node? j).map (fun x => (x.parent, x.removed))) :
    t1.detachedRoots = t2.detachedRoots := by
  unfold Tree.detachedRoots
  rw [hlen]
  apply List.filter_congr
  intro i _
  have hx := hpr i
  cases h1 : t1.arena[i]? with
  | none =>
    cases h2 : t2.arena[i]? with
    | none => rfl
    | some v =>
      rw [show t1.node? i = t1.arena[i]? from rfl, h1,
        show t2.node? i = t2.arena[i]? from rfl, h2] at hx
      cases hx
  | some v =>
    cases h2 : t2.arena[i]? with
    | none =>
      rw [show t1.node? i = t1.arena[i]? from rfl, h1,
        show t2.node? i = t2.arena[i]? from rfl, h2] at hx
      cases hx
    | some w =>
      rw [show t1.node? i = t1.arena[i]? from rfl, h1,
        show t2.node? i = t2.arena[i]? from rfl, h2] at hx
      simp only [Option.map_some', Option.some.injEq, Prod.mk.injEq] at hx
      dsimp only
      rw [hx.1, hx.2, hroot]

/-- Whole-display congruence: two trees that agree on root, current, arena
size and node payloads, whose children lists are permutations with
pairwise-distinct start keys, display identically. -/
theorem display_congr (t1 t2 : Tree) (now : Nat)
    (hroot : t1.root = t2.root) (hcur : t1.current = t2.current)
    (hlen : t1.arena.length = t2.arena.length)
    (hdata : ∀ j, (t1.node? j).map (fun x => (x.span, x.start_time, x.removed))
      = (t2.node? j).map (fun x => (x.span, x.start_time, x.removed)))
    (hpar : ∀ j, (t1.node? j).map NodeData.parent = (t2.node? j).map NodeData.parent)
    (hch : ∀ j, (childrenOf t1 j).Perm (childrenOf t2 j))
    (hnodup : ∀ j, ((childrenOf t1 j).map (startKey t1)).Nodup) :
    t1.display now = t2.display now := by
  have hAux : ∀ fuel i d, displayEntriesAux t1 fuel i d = displayEntriesAux t2 fuel i d :=
    displayEntriesAux_congr t1 t2 hdata hch hnodup
  have hEL : entryLine t1 now = entryLine t2 now :=
    funext (entryLine_congr t1 t2 now hdata hcur)
  have hpr : ∀ j, (t1.node? j).map (fun x => (x.parent, x.removed))
      = (t2.node? j).map (fun x => (x.parent, x.removed)) := by
    intro j
    have h1 := hdata j
    have h2 := hpar j
    cases ha : t1.node? j with
    | none =>
      cases hb : t2.node? j with
      | none => rfl
      | some w =>
        rw [ha, hb] at h1
        cases h1
    | some v =>
      cases hb : t2.node? j with
      | none =>
        rw [ha, hb] at h1
        cases h1
      | some w =>
        rw [ha, hb] at h1 h2
        simp only [Option.map_some', Option.some.injEq, Prod.mk.injEq] at h1 h2 ⊢
        exact ⟨h2, h1.2.2⟩
  have hDR : t1.detachedRoots = t2.detachedRoots :=
    detachedRoots_congr t1 t2 hlen hroot hpr
  unfold Tree.display Tree.mainEntries
  rw [hlen, hroot, hDR, hEL, hAux (t2.arena.length + 1) t2.root 0]
  have hAuxF : (fun n => "[Detached " ++ toString (n + 1) ++ "]\n"
      ++ String.join ((displayEntriesAux t1 (t2.arena.length + 1) n 1).map (entryLine t2 now)))
      = fun n => "[Detached " ++ toString (n + 1) ++ "]\n"
      ++ String.join ((displayEntriesAux t2 (t2.arena.length + 1) n 1).map (entryLine t2 now)) :=
    funext fun n => by rw [hAux]
  rw [hAuxF]

theorem Tree.length_detach (t : Tree) (i : Nat) :
    (t.detach i).arena.length = t.arena.length := by
  unfold Tree.detach
  cases hnd : t.node? i with
  | none => rfl
  | some nd =>
    dsimp only
    cases hp : nd.parent with
    | none => rfl
    | some p =>
      dsimp only
      rw [Tree.length_modifyNode, Tree.length_modifyNode]

theorem Tree.root_detach (t : Tree) (i : Nat) : (t.detach i).root = t.root := by
  unfold Tree.detach
  cases hnd : t.node? i with
  | none => rfl
  | some nd =>
    dsimp only
    cases hp : nd.parent with
    | none => rfl
    | some p => rfl

theorem Tree.root_prepend (t : Tree) (p c : Nat) : (t.prepend p c).root = t.root :=
  Tree.root_detach t c

/-- Slotwise effect of `prepend` on a node whose parent is the prepend
target: the node ends up unchanged except re-parented (to the same
parent), the target's children list gains the node at the front after
losing its old occurrence, everything else is untouched. -/
theorem Tree.prepend_slots_of_parent (t : Tree) (q n : Nat) (cnd nnd : NodeData)
    (hq : t.node? q = some cnd) (hn : t.node? n = some nnd)
    (hpar : nnd.parent = some q) (hne : q ≠ n) :
    (t.prepend q n).node? n = some { nnd with parent := some q } ∧
    (t.prepend q n).node? q = some { cnd with children := n :: cnd.children.erase n } ∧
    (∀ j, j ≠ n → j ≠ q → (t.prepend q n).node? j = t.node? j) ∧
    (t.prepend q n).arena.length = t.arena.length := by
  obtain ⟨hd1, hd2, hd3⟩ := Tree.detach_slots t n nnd q hn hpar hne
  refine ⟨?_, ?_, ?_, ?_⟩
  · show ((Tree.modifyNode (Tree.modifyNode (t.detach n).arena n _) q _))[n]? = _
    rw [Tree.getElem?_modifyNode_ne _ q _ n (Ne.symm hne), Tree.getElem?_modifyNode]
    rw [show (t.detach n).arena[n]? = (t.detach n).node? n from rfl, hd1]
    rfl
  · show ((Tree.modifyNode (Tree.modifyNode (t.detach n).arena n _) q _))[q]? = _
    rw [Tree.getElem?_modifyNode]
    rw [Tree.getElem?_modifyNode_ne _ n _ q hne]
    rw [show (t.detach n).arena[q]? = (t.detach n).node? q from rfl, hd2, hq]
    rfl
  · intro j hjn hjq
    show ((Tree.modifyNode (Tree.modifyNode (t.detach n).arena n _) q _))[j]? = _
    rw [Tree.getElem?_modifyNode_ne _ q _ j hjq, Tree.getElem?_modifyNode_ne _ n _ j hjn]
    exact hd3 j hjn hjq
  · show ((Tree.modifyNode (Tree.modifyNode (t.detach n).arena n _) q _)).length = _
    rw [Tree.length_modifyNode, Tree.length_modifyNode, Tree.length_detach]

/-- C6 counterexample: with two sibling children sharing a start time, the
short-circuited `step_in` and the spec's unconditional detach-then-prepend
produce observably different displays — the stable sort breaks the
start-time tie by sibling-list order, which the unconditional prepend
reorders. -/
theorem step_in_shortcircuit_counterexample :
    (tieTree.step_in 1).display 9 ≠ (stepInUnconditional tieTree 1).display 9 ∧
    (tieTree.step_in 1).display 9
      = "root [9.000ns]\n  a [4.000ns]\n  b [4.000ns]  <== current\n" ∧
    (stepInUnconditional tieTree 1).display 9
      = "root [9.000ns]\n  b [4.000ns]  <== current\n  a [4.000ns]\n" :=
  ⟨by decide, rfl, rfl⟩

/-- C6 amended: the "is already a child" check of `step_in` is a
short-circuit optimization up to sibling order among equally-timed
children: on any tree whose children lists never repeat a start time,
`step_in(node)` and the unconditional detach-then-prepend agree on the
current pointer, on every node's parent, span, start time and removed
flag, and render byte-identical displays.  (The counterexample shows the
displays can differ when two siblings share a start time.) -/
theorem step_in_shortcircuit_amended (t : Tree) (n : Nat) (now : Nat) (cnd nnd : NodeData)
    (hcur : t.node? t.current = some cnd) (hn : t.node? n = some nnd)
    (hne : n ≠ t.current)
    (hcons : n ∈ cnd.children → nnd.parent = some t.current)
    (hnodup : ∀ j < t.arena.length, ((childrenOf t j).map (startKey t)).Nodup) :
    (t.step_in n).current = (stepInUnconditional t n).current ∧
    (∀ j, ((t.step_in n).node? j).map NodeData.parent
        = ((stepInUnconditional t n).node? j).map NodeData.parent) ∧
    (∀ j, ((t.step_in n).node? j).map (fun x => (x.span, x.start_time, x.removed))
        = ((stepInUnconditional t n).node? j).map (fun x => (x.span, x.start_time, x.removed))) ∧
    (t.step_in n).display now = (stepInUnconditional t n).display now := by
  by_cases hmem : n ∈ cnd.children
  case neg =>
    have heq : t.step_in n = stepInUnconditional t n := by
      unfold Tree.step_in stepInUnconditional
      rw [hcur]
      dsimp only
      rw [if_neg (by simpa using hmem)]
    rw [heq]
    exact ⟨rfl, fun _ => rfl, fun _ => rfl, rfl⟩
  case pos =>
    have hq := hcons hmem
    have hstep : t.step_in n = { t with current := n } := by
      unfold Tree.step_in
      rw [hcur]
      dsimp only
      rw [if_pos (by simpa using hmem)]
    obtain ⟨hpn, hpq, hpo, hplen⟩ :=
      Tree.prepend_slots_of_parent t t.current n cnd nnd hcur hn hq (Ne.symm hne)
    have hnval : ({ nnd with parent := some t.current } : NodeData) = nnd := by
      cases nnd
      simp only at hq
      simp [hq]
    have hBn : (stepInUnconditional t n).node? n = some nnd := by
      show (t.prepend t.current n).node? n = some nnd
      rw [hpn, hnval]
    have hBq : (stepInUnconditional t n).node? t.current
        = some { cnd with children := n :: cnd.children.erase n } := hpq
    have hBo : ∀ j, j ≠ n → j ≠ t.current →
        (stepInUnconditional t n).node? j = t.node? j := hpo
    have hAn : ∀ j, (t.step_in n).node? j = t.node? j := by
      intro j
      rw [hstep]
      rfl
    have hdata : ∀ j, ((t.step_in n).node? j).map (fun x => (x.span, x.start_time, x.removed))
        = ((stepInUnconditional t n).node? j).map
            (fun x => (x.span, x.start_time, x.removed)) := by
      intro j
      rw [hAn]
      by_cases hjn : j = n
      · rw [hjn, hBn, hn]
      · by_cases hjc : j = t.current
        · rw [hjc, hBq, hcur]
          rfl
        · rw [hBo j hjn hjc]
    have hpar : ∀ j, ((t.step_in n).node? j).map NodeData.parent
        = ((stepInUnconditional t n).node? j).map NodeData.parent := by
      intro j
      rw [hAn]
      by_cases hjn : j = n
      · rw [hjn, hBn, hn]
      · by_cases hjc : j = t.current
        · rw [hjc, hBq, hcur]
          rfl
        · rw [hBo j hjn hjc]
    have hch : ∀ j, (childrenOf (t.step_in n) j).Perm
        (childrenOf (stepInUnconditional t n) j) := by
      intro j
      unfold childrenOf
      rw [hAn]
      by_cases hjn : j = n
      · rw [hjn, hBn, hn]
      · by_cases hjc : j = t.current
        · rw [hjc, hBq, hcur]
          exact List.perm_cons_erase hmem
        · rw [hBo j hjn hjc]
    have hnodup' : ∀ j, ((childrenOf (t.step_in n) j).map (startKey (t.step_in n))).Nodup := by
      intro j
      have hsame : childrenOf (t.step_in n) j = childrenOf t j := by
        unfold childrenOf
        rw [hAn]
      have hkey : startKey (t.step_in n) = startKey t := by
        funext x
        unfold startKey
        rw [hAn]
      rw [hsame, hkey]
      by_cases hj : j < t.arena.length
      · exact hnodup j hj
      · have hnil : childrenOf t j = [] := by
          unfold childrenOf Tree.node?
          rw [List.getElem?_eq_none (by omega)]
        rw [hnil]
        exact List.nodup_nil
    refine ⟨?_, hpar, hdata, ?_⟩
    · rw [hstep]
      rfl
    · refine display_congr (t.step_in n) (stepInUnconditional t n) now ?_ ?_ ?_
        hdata hpar hch hnodup'
      · rw [hstep]
        show t.root = (t.prepend t.current n).root
        rw [Tree.root_prepend]
      · rw [hstep]
        rfl
      · rw [hstep]
        show t.arena.length = (t.prepend t.current n).arena.length
        rw [hplen]

/-- C6 witness: on the concrete S7 tree, whose children have pairwise
distinct start times, stepping into `b` by either implementation yields
the same current pointer and the same display. -/
theorem step_in_shortcircuit_amended_witness :
    (s7tree.step_in 1).current = (stepInUnconditional s7tree 1).current ∧
    (s7tree.step_in 1).display 10 = (stepInUnconditional s7tree 1).display 10 :=
  ⟨(step_in_shortcircuit_amended s7tree 1 10
      { span := { name := "root", is_verbose := false, is_long_running := true },
        start_time := 0, parent := none, children := [3, 2, 1], removed := false }
      { span := Span.new "b", start_time := 3, parent := some 0,
        children := [], removed := false }
      rfl rfl (by decide) (fun _ => rfl) (by decide)).1,
   (step_in_shortcircuit_amended s7tree 1 10
      { span := { name := "root", is_verbose := false, is_long_running := true },
        start_time := 0, parent := none, children := [3, 2, 1], removed := false }
      { span := Span.new "b", start_time := 3, parent := some 0,
        children := [], removed := false }
      rfl rfl (by decide) (fun _ => rfl) (by decide)).2.2.2⟩

end AwaitTree
